import Mathlib

/-
  Verification of the dependency-ordered system scheduler builder
  (combustion_ecs/src/builder.rs).

  The Rust code is shallowly embedded: the petgraph Graph is a list of
  optional node payloads (index = NodeIndex) plus a list of directed edges in
  insertion order; the FnvHashMap node table is an association list (inserts
  only ever happen for names that are absent, so first-match lookup agrees
  with the hash map); boxed system constructors are represented by an
  inductive carrying their observable behaviour.  petgraph details that the
  code observes are reproduced exactly: add_node appends and returns the old
  length, add_edge appends (parallel edges allowed), neighbors iterates
  outgoing edges most-recently-inserted first, Dfs::next pops a stack and
  pushes undiscovered successors in iteration order, and has_path_connecting
  is DFS reachability from its first node argument to its second.
-/

namespace Combustion

/-- Error kinds of the builder.  Modelled from the spec: the SystemError
enumeration lives in the error module of this crate, which is not among the
provided sources; spec section 7 lists exactly these variants as the error
kinds the builder raises. -/
inductive SystemError where
  | DuplicateSystem (name : String)
  | WouldCycle
  | MissingDependentSystem (name : String)
deriving DecidableEq

deriving instance DecidableEq for Except

/-- A boxed system constructor.  A user-supplied constructor is opaque to the
builder; the only thing the builder observes is the result of invoking it, so
a user constructor carries an identifier and its fixed invocation result.
The missingDep form is the synthetic closure the builder itself creates for a
dependency name that is not yet registered; invoking it throws
MissingDependentSystem with the captured name. -/
inductive SystemConstructor where
  | user (id : Nat) (result : Option SystemError)
  | missingDep (name : String)
deriving DecidableEq

/-- Invoking a constructor (the call cb(planner, priority) in build; the
planner handle is opaque and the observable outcome does not depend on the
priority argument). -/
def runConstructor : SystemConstructor → Except SystemError Unit
  | .user _ none => .ok ()
  | .user _ (some e) => .error e
  | .missingDep n => .error (.MissingDependentSystem n)

/-- The SystemBuilder state: the node table, the root node index, and the
graph split into node weights (nodes, index = NodeIndex) and directed edges
in insertion order. -/
structure SystemBuilder where
  node_table : List (String × Nat)
  root : Nat
  nodes : List (Option SystemConstructor)
  edges : List (Nat × Nat)
deriving DecidableEq

/-- FnvHashMap lookup: first matching key (keys are never inserted twice, so
this is exact). -/
def lookupName : List (String × Nat) → String → Option Nat
  | [], _ => none
  | (k, v) :: rest, name => if k = name then some v else lookupName rest name

/-- SystemBuilder::new(): an empty table and a graph holding the payloadless
root node. -/
def SystemBuilder.new : SystemBuilder :=
  { node_table := [], root := 0, nodes := [none], edges := [] }

/-- Outgoing neighbors of a node, in the order petgraph yields them: the
per-node edge list is a linked list that add_edge prepends to, so iteration
is most-recently-inserted edge first. -/
def neighbors (edges : List (Nat × Nat)) (a : Nat) : List Nat :=
  ((edges.filter (fun e => e.fst == a)).map Prod.snd).reverse

/-- One Dfs traversal loop (petgraph Dfs::next iterated to exhaustion):
pop the stack; an undiscovered node is marked, its undiscovered successors
are pushed in iteration order, and it is emitted.  Fuel makes the recursion
structural; dfsFuel below always suffices to drain the stack. -/
def dfsLoop (edges : List (Nat × Nat)) : Nat → List Nat → List Nat → List Nat
  | 0, _, _ => []
  | fuel + 1, stack, disc =>
    match stack with
    | [] => []
    | n :: rest =>
      if n ∈ disc then
        dfsLoop edges fuel rest disc
      else
        n :: dfsLoop edges fuel
          ((((neighbors edges n).filter (fun m => decide (m ∉ n :: disc))).reverse) ++ rest)
          (n :: disc)

/-- Fuel that always suffices for dfsLoop to run until its stack is empty
(proved below as part of dfsLoop_spec). -/
def dfsFuel (s : SystemBuilder) : Nat :=
  s.nodes.length * (1 + s.edges.length) + 1

/-- The order in which Dfs::new(graph, start) followed by repeated next calls
visits nodes. -/
def dfsVisit (s : SystemBuilder) (start : Nat) : List Nat :=
  dfsLoop s.edges (dfsFuel s) [start] []

/-- petgraph algo::has_path_connecting g from to: whether a DFS from the
first node reaches the second (true when the two coincide).  The DfsSpace
workspace is reset on every call, so the result is pure reachability on the
current graph. -/
def hasPathConnecting (s : SystemBuilder) (a b : Nat) : Bool :=
  decide (b ∈ dfsVisit s a)

/-- SystemBuilder::add_system_impl: on an occupied table entry the existing
node keeps its index and its payload is overwritten (the defensive
DuplicateSystem branch fires if the table points outside the graph); on a
vacant entry a fresh node is appended and recorded in the table. -/
def add_system_impl (s : SystemBuilder) (name : String) (c : SystemConstructor) :
    SystemBuilder × Except SystemError Nat :=
  match lookupName s.node_table name with
  | some node =>
    if node < s.nodes.length then
      ({ s with nodes := s.nodes.set node (some c) }, .ok node)
    else
      (s, .error (.DuplicateSystem name))
  | none =>
    ({ s with nodes := s.nodes ++ [some c],
              node_table := (name, s.nodes.length) :: s.node_table },
     .ok s.nodes.length)

/-- SystemBuilder::add_system: register the payload, then connect the node to
the root (the edge is added even when the node already existed). -/
def add_system (s : SystemBuilder) (name : String) (c : SystemConstructor) :
    SystemBuilder × Except SystemError Nat :=
  match add_system_impl s name c with
  | (s1, .ok node) => ({ s1 with edges := s1.edges ++ [(s1.root, node)] }, .ok node)
  | (s1, .error e) => (s1, .error e)

/-- The dependency loop of add_system_with_deps, processing the declared
dependency names in caller order.  A vacant name gets a fresh placeholder
node whose payload throws MissingDependentSystem, a root-anchoring edge, and
a table entry; an occupied name is checked with
has_path_connecting(graph, dep_node, node) and the call throws WouldCycle if
that query is true.  Each surviving dependency adds the edge
(dep_node, node).  Mutations made before a throw are kept, exactly as the
Rust method leaves them behind when it returns early. -/
def add_deps_loop (node : Nat) : List String → SystemBuilder → SystemBuilder × Except SystemError Unit
  | [], s => (s, .ok ())
  | dep :: rest, s =>
    match lookupName s.node_table dep with
    | none =>
      let dep_node := s.nodes.length
      add_deps_loop node rest
        { s with nodes := s.nodes ++ [some (.missingDep dep)],
                 node_table := (dep, dep_node) :: s.node_table,
                 edges := (s.edges ++ [(s.root, dep_node)]) ++ [(dep_node, node)] }
    | some dep_node =>
      if hasPathConnecting s dep_node node then
        (s, .error .WouldCycle)
      else
        add_deps_loop node rest { s with edges := s.edges ++ [(dep_node, node)] }

/-- SystemBuilder::add_system_with_deps: register the payload, then run the
dependency loop.  Note that no root edge is added for the node being
registered here (only placeholder dependencies receive root edges). -/
def add_system_with_deps (s : SystemBuilder) (name : String) (c : SystemConstructor)
    (deps : List String) : SystemBuilder × Except SystemError Nat :=
  match add_system_impl s name c with
  | (s1, .ok node) =>
    match add_deps_loop node deps s1 with
    | (s2, .ok ()) => (s2, .ok node)
    | (s2, .error e) => (s2, .error e)
  | (s1, .error e) => (s1, .error e)

/-- specs::Priority::max_value(): the priority counter starts at the maximum
representable value of the unsigned priority integer. -/
def priorityMax : Nat := 2 ^ 64 - 1

/-- The loop body of build: walk the traversal order; a node with a payload
is invoked with the current priority (recorded in the trace), the counter is
decremented on success, and the first payload error aborts the walk. -/
def buildLoop (nodes : List (Option SystemConstructor)) :
    List Nat → Nat → List (Nat × Nat) → List (Nat × Nat) × Except SystemError Unit
  | [], _, trace => (trace, .ok ())
  | n :: rest, prio, trace =>
    match nodes.getD n none with
    | none => buildLoop nodes rest prio trace
    | some c =>
      match runConstructor c with
      | .ok () => buildLoop nodes rest (prio - 1) (trace ++ [(n, prio)])
      | .error e => (trace ++ [(n, prio)], .error e)

/-- The (node, priority) invocations build performs, in order. -/
def buildTrace (s : SystemBuilder) : List (Nat × Nat) :=
  (buildLoop s.nodes (dfsVisit s s.root) priorityMax []).fst

/-- SystemBuilder::build: Dfs from the root, invoking each visited payload
with a descending priority counter seeded at the maximum value, aborting on
the first payload error. -/
def build (s : SystemBuilder) : Except SystemError Unit :=
  (buildLoop s.nodes (dfsVisit s s.root) priorityMax []).snd

/-- A builder API call: either registration form with its arguments. -/
inductive Op where
  | add (name : String) (c : SystemConstructor)
  | addWithDeps (name : String) (c : SystemConstructor) (deps : List String)
deriving DecidableEq

/-- Execute one call against a builder.  The state component is the builder
after the call whether or not the call succeeded, matching the Rust methods
that mutate through a mutable reference and keep partial work on error. -/
def runOp (s : SystemBuilder) : Op → SystemBuilder × Except SystemError Nat
  | .add name c => add_system s name c
  | .addWithDeps name c deps => add_system_with_deps s name c deps

/-- Execute a sequence of calls, threading the state through successes and
failures alike. -/
def runOps (s : SystemBuilder) : List Op → SystemBuilder
  | [] => s
  | op :: rest => runOps (runOp s op).fst rest

def isOk : Except SystemError Nat → Bool
  | .ok _ => true
  | .error _ => false

/-- Whether every call in the sequence returns Ok. -/
def opsOk (s : SystemBuilder) : List Op → Bool
  | [] => true
  | op :: rest => isOk (runOp s op).snd && opsOk (runOp s op).fst rest

/-- The builder obtained by running a call sequence on a fresh builder. -/
def builderAfter (ops : List Op) : SystemBuilder :=
  runOps SystemBuilder.new ops

/-- The name a call registers. -/
def opName : Op → String
  | .add name _ => name
  | .addWithDeps name _ _ => name

/-- Whether a call registers the given name. -/
def opRegisters (op : Op) (name : String) : Bool :=
  opName op == name

/-- The dependency names a call declares. -/
def opDeps : Op → List String
  | .add _ _ => []
  | .addWithDeps _ _ deps => deps

/-- Whether the constructor a call supplies is a user constructor that
returns Ok when invoked. -/
def opCtorOk : Op → Bool
  | .add _ (.user _ none) => true
  | .addWithDeps _ (.user _ none) _ => true
  | _ => false

/-- Whether a call declares at least one dependency when it is of the
with-deps form. -/
def opDepsNonempty : Op → Bool
  | .add _ _ => true
  | .addWithDeps _ _ deps => !deps.isEmpty

/-- Some call of the sequence registers the name. -/
def Registered (ops : List Op) (name : String) : Prop :=
  ∃ op ∈ ops, opRegisters op name = true

/-- Some call of the sequence declares the name as a dependency. -/
def MentionedDep (ops : List Op) (name : String) : Prop :=
  ∃ op ∈ ops, name ∈ opDeps op

instance (ops : List Op) (m : String) : Decidable (Registered ops m) :=
  decidable_of_iff (∃ op ∈ ops, opRegisters op m = true) Iff.rfl

instance (ops : List Op) (m : String) : Decidable (MentionedDep ops m) :=
  decidable_of_iff (∃ op ∈ ops, m ∈ opDeps op) Iff.rfl

/-- The edge relation of the builder graph. -/
def edgeRel (s : SystemBuilder) (a b : Nat) : Prop := (a, b) ∈ s.edges

/-- Directed reachability in the builder graph. -/
def Reaches (s : SystemBuilder) (a b : Nat) : Prop :=
  Relation.ReflTransGen (edgeRel s) a b

/-- Call sequence exhibiting the priority-order defect of C1: node 2 is the
system P, node 3 the system Z, P depends on Z, all three registrations
succeed, every name is registered and every constructor succeeds. -/
def c1Ops : List Op :=
  [.addWithDeps "A" (.user 1 none) ["P"],
   .add "Z" (.user 2 none),
   .addWithDeps "P" (.user 3 none) ["Z"]]

/-- Call sequence of the X-then-Y mutual dependency scenario used by C2 and
related claims. -/
def c2Ops : List Op :=
  [.addWithDeps "X" (.user 1 none) ["Y"],
   .addWithDeps "Y" (.user 2 none) ["X"]]

/-- The builder after registering X with a dependency on Y: X is node 1,
Y is the placeholder node 2, and the edges are (root, 2) and (2, 1). -/
def xDepsYState : SystemBuilder :=
  builderAfter [.addWithDeps "X" (.user 1 none) ["Y"]]

/-- The second call of the mutual-dependency scenario: Y registered with a
dependency on X. -/
def yDepsXOp : Op := .addWithDeps "Y" (.user 2 none) ["X"]

/-- The builder after registering A with a dependency on B (A is node 1, B
the placeholder node 2), used for the re-registration claim. -/
def aDepsBState : SystemBuilder :=
  builderAfter [.addWithDeps "A" (.user 1 none) ["B"]]

/-- The with-deps call with an empty dependency list used as the C5
counterexample. -/
def emptyDepsOp : Op := .addWithDeps "A" (.user 1 none) []

/-- Well-formedness of the node table as a boolean: every table entry points
at a node index that exists in the graph. -/
def tableWFb (s : SystemBuilder) : Bool :=
  s.node_table.all (fun p => p.2 < s.nodes.length)

/-- Every node of the graph is reachable from the root (the root itself
trivially so). -/
def AllReachable (s : SystemBuilder) : Prop :=
  ∀ i, i < s.nodes.length → Reaches s s.root i

/-- Witness call sequence for the amended C5: A is registered dependency
free, then B is registered depending on A, so node 2 (B) is reachable from
the root through node 1 (A). -/
def c5WitnessOps : List Op :=
  [.add "A" (.user 0 none), .addWithDeps "B" (.user 1 none) ["A"]]

/-- Witness call sequence for C6: A is registered with a dependency on the
never-registered name B, so build must fail with MissingDependentSystem B. -/
def c6WitnessOps : List Op :=
  [.addWithDeps "A" (.user 0 none) ["B"]]

/-- Structural invariants of the builder state that hold after any call
sequence, successful or not: the root is node 0 and always exists, table
entries point at existing non-root nodes, distinct names map to distinct
nodes, edges join existing nodes, no edge enters the root, and the root
payload stays absent. -/
structure CoreInv (s : SystemBuilder) : Prop where
  root_eq : s.root = 0
  len_pos : 0 < s.nodes.length
  table_lt : ∀ p ∈ s.node_table, p.2 < s.nodes.length
  table_ne_root : ∀ p ∈ s.node_table, p.2 ≠ 0
  table_inj : ∀ p ∈ s.node_table, ∀ q ∈ s.node_table, p.2 = q.2 → p.1 = q.1
  edges_src_lt : ∀ e ∈ s.edges, e.1 < s.nodes.length
  edges_tgt_lt : ∀ e ∈ s.edges, e.2 < s.nodes.length
  edges_tgt_ne_root : ∀ e ∈ s.edges, e.2 ≠ 0
  root_payload : s.nodes.getD 0 none = none

/-- Bookkeeping invariants relating a successful, all-Ok call sequence made
only of user constructors that succeed to the builder it produces: every
registered and every mentioned name is in the table, every table entry is a
registered name or currently a placeholder, every placeholder node is
root-anchored and corresponds to a mentioned-but-unregistered name, and
every payload is a placeholder or a succeeding user constructor. -/
structure BuilderInv (ops : List Op) (s : SystemBuilder) : Prop where
  core : CoreInv s
  registered_mem : ∀ m, Registered ops m → ∃ q, lookupName s.node_table m = some q
  mentioned_mem : ∀ m, MentionedDep ops m → ∃ q, lookupName s.node_table m = some q
  table_state : ∀ p ∈ s.node_table,
    Registered ops p.1 ∨ s.nodes.getD p.2 none = some (.missingDep p.1)
  missing_char : ∀ q m, s.nodes.getD q none = some (.missingDep m) →
    lookupName s.node_table m = some q ∧ (0, q) ∈ s.edges ∧
    MentionedDep ops m ∧ ¬ Registered ops m
  payload_class : ∀ q c, s.nodes.getD q none = some c →
    (∃ m, c = SystemConstructor.missingDep m) ∨ ∃ i, c = SystemConstructor.user i none

end Combustion

namespace Combustion

theorem lookupName_mem {t : List (String × Nat)} {name : String} {v : Nat}
    (h : lookupName t name = some v) : (name, v) ∈ t := by
  induction t with
  | nil => simp [lookupName] at h
  | cons p rest ih =>
    rcases p with ⟨k, w⟩
    simp only [lookupName] at h
    by_cases hk : k = name
    · rw [if_pos hk] at h
      cases h
      subst hk
      exact List.mem_cons_self _ _
    · rw [if_neg hk] at h
      exact List.mem_cons_of_mem _ (ih h)

theorem lookupName_cons_ne {t : List (String × Nat)} {k name : String} {v : Nat}
    (h : k ≠ name) : lookupName ((k, v) :: t) name = lookupName t name := by
  simp [lookupName, h]

theorem lookupName_cons_self (t : List (String × Nat)) (k : String) (v : Nat) :
    lookupName ((k, v) :: t) k = some v := by
  simp [lookupName]

theorem getD_append_lt {α : Type} (l l2 : List α) (d : α) :
    ∀ i, i < l.length → (l ++ l2).getD i d = l.getD i d := by
  induction l with
  | nil => intro i hi; simp at hi
  | cons a t ih =>
    intro i hi
    cases i with
    | zero => rfl
    | succ j =>
      have hj : j < t.length := by simpa using hi
      simpa using ih j hj

theorem getD_append_len {α : Type} (l : List α) (x d : α) :
    (l ++ [x]).getD l.length d = x := by
  induction l with
  | nil => rfl
  | cons a t ih => exact ih

theorem getD_append_ge {α : Type} (l l2 : List α) (d : α) :
    ∀ i, l.length ≤ i → (l ++ l2).getD i d = l2.getD (i - l.length) d := by
  induction l with
  | nil => intro i _; simp
  | cons a t ih =>
    intro i hi
    cases i with
    | zero => simp at hi
    | succ j =>
      have hj : t.length ≤ j := by simpa using hi
      simpa [Nat.succ_sub_succ] using ih j hj

theorem getD_some_lt {α : Type} {l : List (Option α)} {i : Nat} {c : α}
    (h : l.getD i none = some c) : i < l.length := by
  by_contra hge
  push_neg at hge
  rw [List.getD_eq_getElem?_getD, List.getElem?_eq_none hge] at h
  simp at h

theorem getD_set_self {α : Type} (l : List α) (x d : α) :
    ∀ i, i < l.length → (l.set i x).getD i d = x := by
  induction l with
  | nil => intro i hi; simp at hi
  | cons a t ih =>
    intro i hi
    cases i with
    | zero => rfl
    | succ j =>
      have hj : j < t.length := by simpa using hi
      simpa using ih j hj

theorem getD_set_ne {α : Type} (l : List α) (x d : α) :
    ∀ i j, i ≠ j → (l.set i x).getD j d = l.getD j d := by
  induction l with
  | nil => intro i j _; simp
  | cons a t ih =>
    intro i j hij
    cases i with
    | zero =>
      cases j with
      | zero => exact absurd rfl hij
      | succ j2 => rfl
    | succ i2 =>
      cases j with
      | zero => rfl
      | succ j2 =>
        have : i2 ≠ j2 := fun h => hij (by rw [h])
        simpa using ih i2 j2 this

theorem length_set {α : Type} (l : List α) (i : Nat) (x : α) :
    (l.set i x).length = l.length := by
  simp

/-- A DFS started at a node visits that node, so has_path_connecting is
reflexive. -/
theorem hasPathConnecting_refl (s : SystemBuilder) (n : Nat) :
    hasPathConnecting s n n = true := by
  have h1 : dfsVisit s n =
      n :: dfsLoop s.edges (s.nodes.length * (1 + s.edges.length))
        ((((neighbors s.edges n).filter (fun m => decide (m ∉ n :: ([] : List Nat)))).reverse) ++ [])
        (n :: []) := by
    simp [dfsVisit, dfsFuel, dfsLoop]
  simp only [hasPathConnecting, h1]
  simp

/-- Unfolding add_system_impl at a vacant table entry. -/
theorem add_system_impl_vacant {s : SystemBuilder} {name : String} (c : SystemConstructor)
    (h : lookupName s.node_table name = none) :
    add_system_impl s name c =
      ({ s with nodes := s.nodes ++ [some c],
                node_table := (name, s.nodes.length) :: s.node_table },
       Except.ok s.nodes.length) := by
  simp [add_system_impl, h]

/-- Unfolding add_system_impl at an occupied table entry with a valid node. -/
theorem add_system_impl_occupied {s : SystemBuilder} {name : String} {node : Nat}
    (c : SystemConstructor) (h : lookupName s.node_table name = some node)
    (hlt : node < s.nodes.length) :
    add_system_impl s name c =
      ({ s with nodes := s.nodes.set node (some c) }, Except.ok node) := by
  simp [add_system_impl, h, hlt]

/-- With a well-formed table the defensive DuplicateSystem branch of
add_system_impl is dead: the registration always succeeds. -/
theorem add_system_impl_isOk (s : SystemBuilder) (name : String) (c : SystemConstructor)
    (h : ∀ p ∈ s.node_table, p.2 < s.nodes.length) :
    ∃ node, (add_system_impl s name c).snd = Except.ok node := by
  rcases hl : lookupName s.node_table name with _ | node
  · exact ⟨s.nodes.length, by rw [add_system_impl_vacant c hl]⟩
  · have hlt : node < s.nodes.length := h _ (lookupName_mem hl)
    exact ⟨node, by rw [add_system_impl_occupied c hl hlt]⟩

/-- The dependency loop either succeeds or throws WouldCycle. -/
theorem add_deps_loop_result (node : Nat) :
    ∀ (deps : List String) (s : SystemBuilder),
      (add_deps_loop node deps s).snd = Except.ok () ∨
      (add_deps_loop node deps s).snd = Except.error SystemError.WouldCycle := by
  intro deps
  induction deps with
  | nil => intro s; left; rfl
  | cons dep rest ih =>
    intro s
    rcases hl : lookupName s.node_table dep with _ | dep_node
    · simpa [add_deps_loop, hl] using ih _
    · by_cases hp : hasPathConnecting s dep_node node = true
      · right
        simp [add_deps_loop, hl, hp]
      · simpa [add_deps_loop, hl, hp] using ih _

theorem coreInv_new : CoreInv SystemBuilder.new := by
  refine ⟨rfl, by decide, ?_, ?_, ?_, ?_, ?_, ?_, rfl⟩ <;> simp [SystemBuilder.new]

theorem coreInv_add_system_impl (s : SystemBuilder) (name : String) (c : SystemConstructor)
    (h : CoreInv s) : CoreInv (add_system_impl s name c).fst := by
  rcases hl : lookupName s.node_table name with _ | node
  · rw [add_system_impl_vacant c hl]
    refine ⟨h.root_eq, ?_, ?_, ?_, ?_, ?_, ?_, h.edges_tgt_ne_root, ?_⟩
    · simp
    · intro p hp
      rcases List.mem_cons.mp hp with rfl | hp2
      · simp
      · have := h.table_lt p hp2
        simp
        omega
    · intro p hp
      rcases List.mem_cons.mp hp with rfl | hp2
      · have := h.len_pos; omega
      · exact h.table_ne_root p hp2
    · intro p hp q hq hv
      rcases List.mem_cons.mp hp with rfl | hp2 <;> rcases List.mem_cons.mp hq with rfl | hq2
      · rfl
      · exact absurd hv.symm (Nat.ne_of_lt (h.table_lt q hq2))
      · exact absurd hv (Nat.ne_of_lt (h.table_lt p hp2))
      · exact h.table_inj p hp2 q hq2 hv
    · intro e he
      have := h.edges_src_lt e he
      simp
      omega
    · intro e he
      have := h.edges_tgt_lt e he
      simp
      omega
    · rw [getD_append_lt _ _ _ _ h.len_pos]
      exact h.root_payload
  · by_cases hlt : node < s.nodes.length
    · rw [add_system_impl_occupied c hl hlt]
      have hne : node ≠ 0 := h.table_ne_root _ (lookupName_mem hl)
      refine ⟨h.root_eq, ?_, ?_, h.table_ne_root, h.table_inj, ?_, ?_, h.edges_tgt_ne_root, ?_⟩
      · simpa using h.len_pos
      · simpa using h.table_lt
      · simpa using h.edges_src_lt
      · simpa using h.edges_tgt_lt
      · rw [getD_set_ne _ _ _ _ _ hne]
        exact h.root_payload
    · have : add_system_impl s name c = (s, .error (.DuplicateSystem name)) := by
        simp [add_system_impl, hl, hlt]
      rw [this]
      exact h

theorem add_system_impl_ok_spec {s : SystemBuilder} {name : String} {c : SystemConstructor}
    {node : Nat} (h : CoreInv s) (hr : (add_system_impl s name c).snd = Except.ok node) :
    node < (add_system_impl s name c).fst.nodes.length ∧ node ≠ 0 ∧
    (add_system_impl s name c).fst.root = s.root ∧
    lookupName (add_system_impl s name c).fst.node_table name = some node := by
  rcases hl : lookupName s.node_table name with _ | node0
  · rw [add_system_impl_vacant c hl] at hr ⊢
    cases hr
    refine ⟨by simp, (by have := h.len_pos; omega : s.nodes.length ≠ 0), rfl, ?_⟩
    exact lookupName_cons_self _ _ _
  · have hlt : node0 < s.nodes.length := h.table_lt _ (lookupName_mem hl)
    rw [add_system_impl_occupied c hl hlt] at hr ⊢
    cases hr
    refine ⟨by simpa using hlt, h.table_ne_root _ (lookupName_mem hl), rfl, hl⟩

theorem coreInv_add_deps_loop (node : Nat) :
    ∀ (deps : List String) (s : SystemBuilder), CoreInv s →
      node < s.nodes.length → node ≠ 0 →
      CoreInv (add_deps_loop node deps s).fst := by
  intro deps
  induction deps with
  | nil => intro s h _ _; exact h
  | cons dep rest ih =>
    intro s h hnode hne
    rcases hl : lookupName s.node_table dep with _ | dep_node
    · simp only [add_deps_loop, hl]
      have hlen := h.len_pos
      refine ih _ ?_ (by simp; omega) hne
      refine ⟨h.root_eq, by simp, ?_, ?_, ?_, ?_, ?_, ?_, ?_⟩
      · intro p hp
        rcases List.mem_cons.mp hp with rfl | hp2
        · simp
        · have := h.table_lt p hp2
          simp
          omega
      · intro p hp
        rcases List.mem_cons.mp hp with rfl | hp2
        · have := hlen; omega
        · exact h.table_ne_root p hp2
      · intro p hp q hq hv
        rcases List.mem_cons.mp hp with rfl | hp2 <;> rcases List.mem_cons.mp hq with rfl | hq2
        · rfl
        · exact absurd hv.symm (Nat.ne_of_lt (h.table_lt q hq2))
        · exact absurd hv (Nat.ne_of_lt (h.table_lt p hp2))
        · exact h.table_inj p hp2 q hq2 hv
      · intro e he
        simp only [List.append_assoc, List.mem_append] at he
        rcases he with he | he
        · have := h.edges_src_lt e he
          simp
          omega
        · simp at he
          rcases he with rfl | rfl
          · simp [h.root_eq]
          · simp
      · intro e he
        simp only [List.append_assoc, List.mem_append] at he
        rcases he with he | he
        · have := h.edges_tgt_lt e he
          simp
          omega
        · simp at he
          rcases he with rfl | rfl
          · simp
          · simp
            omega
      · intro e he
        simp only [List.append_assoc, List.mem_append] at he
        rcases he with he | he
        · exact h.edges_tgt_ne_root e he
        · simp at he
          rcases he with rfl | rfl
          · show s.nodes.length ≠ 0
            omega
          · exact hne
      · rw [getD_append_lt _ _ _ _ hlen]
        exact h.root_payload
    · by_cases hp : hasPathConnecting s dep_node node = true
      · simp only [add_deps_loop, hl, hp, if_pos]
        exact h
      · simp only [add_deps_loop, hl, hp, if_neg, Bool.not_eq_true]
        have hdlt : dep_node < s.nodes.length := h.table_lt _ (lookupName_mem hl)
        refine ih _ ?_ (by simpa using hnode) hne
        refine ⟨h.root_eq, by simpa using h.len_pos, by simpa using h.table_lt,
          h.table_ne_root, h.table_inj, ?_, ?_, ?_, by simpa using h.root_payload⟩
        · intro e he
          rcases List.mem_append.mp he with he | he
          · simpa using h.edges_src_lt e he
          · simp at he
            rw [he]
            simpa using hdlt
        · intro e he
          rcases List.mem_append.mp he with he | he
          · simpa using h.edges_tgt_lt e he
          · simp at he
            rw [he]
            simpa using hnode
        · intro e he
          rcases List.mem_append.mp he with he | he
          · exact h.edges_tgt_ne_root e he
          · simp at he
            rw [he]
            exact hne

theorem coreInv_runOp (s : SystemBuilder) (op : Op) (h : CoreInv s) :
    CoreInv (runOp s op).fst := by
  cases op with
  | add name c =>
    show CoreInv (add_system s name c).fst
    rcases himpl : add_system_impl s name c with ⟨s1, r⟩
    have hcore1 : CoreInv s1 := by
      have := coreInv_add_system_impl s name c h
      rw [himpl] at this
      exact this
    cases r with
    | error e =>
      simp only [add_system, himpl]
      exact hcore1
    | ok node =>
      have hspec := add_system_impl_ok_spec h (by rw [himpl])
      rw [himpl] at hspec
      simp only [add_system, himpl]
      obtain ⟨hlt, hne, hroot, _⟩ := hspec
      refine ⟨hcore1.root_eq, by simpa using hcore1.len_pos, by simpa using hcore1.table_lt,
        hcore1.table_ne_root, hcore1.table_inj, ?_, ?_, ?_, by simpa using hcore1.root_payload⟩
      · intro e he
        rcases List.mem_append.mp he with he | he
        · simpa using hcore1.edges_src_lt e he
        · simp at he
          rw [he]
          simp [hcore1.root_eq, hcore1.len_pos]
      · intro e he
        rcases List.mem_append.mp he with he | he
        · simpa using hcore1.edges_tgt_lt e he
        · simp at he
          rw [he]
          simpa using hlt
      · intro e he
        rcases List.mem_append.mp he with he | he
        · exact hcore1.edges_tgt_ne_root e he
        · simp at he
          rw [he]
          exact hne
  | addWithDeps name c deps =>
    show CoreInv (add_system_with_deps s name c deps).fst
    rcases himpl : add_system_impl s name c with ⟨s1, r⟩
    have hcore1 : CoreInv s1 := by
      have := coreInv_add_system_impl s name c h
      rw [himpl] at this
      exact this
    cases r with
    | error e =>
      simp only [add_system_with_deps, himpl]
      exact hcore1
    | ok node =>
      have hspec := add_system_impl_ok_spec h (by rw [himpl])
      rw [himpl] at hspec
      obtain ⟨hlt, hne, _, _⟩ := hspec
      have hloop := coreInv_add_deps_loop node deps s1 hcore1 hlt hne
      rcases hres : add_deps_loop node deps s1 with ⟨s2, r2⟩
      rw [hres] at hloop
      cases r2 with
      | ok u =>
        cases u
        simp only [add_system_with_deps, himpl, hres]
        exact hloop
      | error e =>
        simp only [add_system_with_deps, himpl, hres]
        exact hloop

theorem coreInv_runOps : ∀ (ops : List Op) (s : SystemBuilder), CoreInv s →
    CoreInv (runOps s ops) := by
  intro ops
  induction ops with
  | nil => intro s h; exact h
  | cons op rest ih => intro s h; exact ih _ (coreInv_runOp s op h)

theorem coreInv_builderAfter (ops : List Op) : CoreInv (builderAfter ops) :=
  coreInv_runOps ops SystemBuilder.new coreInv_new

/-- A builder call never reports DuplicateSystem when the table is
well-formed. -/
theorem runOp_ne_duplicate (s : SystemBuilder) (op : Op) (h : CoreInv s) (nm : String) :
    (runOp s op).snd ≠ Except.error (SystemError.DuplicateSystem nm) := by
  cases op with
  | add name c =>
    show (add_system s name c).snd ≠ _
    obtain ⟨node, hok⟩ := add_system_impl_isOk s name c h.table_lt
    rcases himpl : add_system_impl s name c with ⟨s1, r⟩
    rw [himpl] at hok
    simp only at hok
    rw [hok] at himpl
    simp [add_system, himpl]
  | addWithDeps name c deps =>
    show (add_system_with_deps s name c deps).snd ≠ _
    obtain ⟨node, hok⟩ := add_system_impl_isOk s name c h.table_lt
    rcases himpl : add_system_impl s name c with ⟨s1, r⟩
    rw [himpl] at hok
    simp only at hok
    rw [hok] at himpl
    rcases hres : add_deps_loop node deps s1 with ⟨s2, r2⟩
    have hclass := add_deps_loop_result node deps s1
    rw [hres] at hclass
    simp only at hclass
    rcases hclass with rfl | rfl
    · simp [add_system_with_deps, himpl, hres]
    · simp [add_system_with_deps, himpl, hres]

/-- The first node a Dfs traversal emits is its start node. -/
theorem dfsVisit_head (s : SystemBuilder) (start : Nat) :
    (dfsVisit s start).head? = some start := by
  simp [dfsVisit, dfsFuel, dfsLoop]

/-- If the node at an index has no payload, no trace entry of the build loop
ever mentions that index. -/
theorem buildLoop_fst_ne (nodes : List (Option SystemConstructor)) (r : Nat)
    (hroot : nodes.getD r none = none) :
    ∀ (order : List Nat) (prio : Nat) (trace : List (Nat × Nat)),
      (∀ pr ∈ trace, pr.1 ≠ r) →
      ∀ pr ∈ (buildLoop nodes order prio trace).fst, pr.1 ≠ r := by
  intro order
  induction order with
  | nil => intro prio trace ht pr hpr; exact ht pr hpr
  | cons n rest ih =>
    intro prio trace ht pr hpr
    have hnr : ∀ c, nodes.getD n none = some c → n ≠ r := by
      intro c hc hnr
      rw [hnr, hroot] at hc
      cases hc
    rcases hg : nodes.getD n none with _ | c
    · have hstep : buildLoop nodes (n :: rest) prio trace =
          buildLoop nodes rest prio trace := by
        simp only [buildLoop]
        rw [hg]
      rw [hstep] at hpr
      exact ih prio trace ht pr hpr
    · have htrace : ∀ pr2 ∈ trace ++ [(n, prio)], pr2.1 ≠ r := by
        intro pr2 hpr2
        rcases List.mem_append.mp hpr2 with h2 | h2
        · exact ht pr2 h2
        · simp at h2
          rw [h2]
          exact hnr c hg
      cases hr : runConstructor c with
      | ok u =>
        cases u
        have hstep : buildLoop nodes (n :: rest) prio trace =
            buildLoop nodes rest (prio - 1) (trace ++ [(n, prio)]) := by
          simp only [buildLoop]
          rw [hg]
          simp [hr]
        rw [hstep] at hpr
        exact ih _ _ htrace pr hpr
      | error e =>
        have hstep : (buildLoop nodes (n :: rest) prio trace).fst =
            trace ++ [(n, prio)] := by
          simp only [buildLoop]
          rw [hg]
          simp [hr]
        rw [hstep] at hpr
        exact htrace pr hpr

/-- Claim C9: starting from a fresh builder, after any call sequence every
table entry points at a node that exists in the graph, and no further call
can return the defensive DuplicateSystem error — that branch is
unreachable. -/
theorem c9_duplicate_system_unreachable (ops : List Op) (op : Op) (name : String) :
    (∀ p ∈ (builderAfter ops).node_table, p.2 < (builderAfter ops).nodes.length) ∧
    (runOp (builderAfter ops) op).snd ≠ Except.error (SystemError.DuplicateSystem name) := by
  have h := coreInv_builderAfter ops
  exact ⟨h.table_lt, runOp_ne_duplicate _ op h name⟩

/-- Claim C10: after any call sequence from a fresh builder, no edge targets
the root, the root payload is still absent, the root lies on no directed
cycle, the build traversal visits the root first, and no build invocation
(hence no priority value) is ever spent on the root. -/
theorem c10_root_invariants (ops : List Op) :
    (∀ e ∈ (builderAfter ops).edges, e.2 ≠ (builderAfter ops).root) ∧
    (builderAfter ops).nodes.getD (builderAfter ops).root none = none ∧
    ¬ Relation.TransGen (edgeRel (builderAfter ops))
        (builderAfter ops).root (builderAfter ops).root ∧
    (dfsVisit (builderAfter ops) (builderAfter ops).root).head? =
      some (builderAfter ops).root ∧
    ∀ pr ∈ buildTrace (builderAfter ops), pr.1 ≠ (builderAfter ops).root := by
  have h := coreInv_builderAfter ops
  have hne : ∀ e ∈ (builderAfter ops).edges, e.2 ≠ (builderAfter ops).root := by
    intro e he
    rw [h.root_eq]
    exact h.edges_tgt_ne_root e he
  have hpayload : (builderAfter ops).nodes.getD (builderAfter ops).root none = none := by
    rw [h.root_eq]
    exact h.root_payload
  refine ⟨hne, hpayload, ?_, dfsVisit_head _ _, ?_⟩
  · intro hcyc
    cases hcyc with
    | single hstep => exact hne _ hstep rfl
    | tail _ hstep => exact hne _ hstep rfl
  · exact buildLoop_fst_ne _ _ hpayload _ _ _ (by intro pr hpr; cases hpr)

/-- If the registered node is in the table under some name contained in the
remaining dependency list, the dependency loop throws WouldCycle: when that
dependency is reached the reachability query is asked about the node and
itself, which is trivially true. -/
theorem add_deps_loop_self_cycle (node : Nat) :
    ∀ (deps : List String) (s : SystemBuilder) (name : String),
      lookupName s.node_table name = some node → name ∈ deps →
      (add_deps_loop node deps s).snd = Except.error SystemError.WouldCycle := by
  intro deps
  induction deps with
  | nil => intro s name _ hmem; cases hmem
  | cons dep rest ih =>
    intro s name hlook hmem
    by_cases hdep : dep = name
    · subst hdep
      simp [add_deps_loop, hlook, hasPathConnecting_refl]
    · have hmem2 : name ∈ rest := by
        rcases List.mem_cons.mp hmem with h | h
        · exact absurd h.symm hdep
        · exact h
      rcases hl : lookupName s.node_table dep with _ | dep_node
      · simp only [add_deps_loop, hl]
        refine ih _ name ?_ hmem2
        rw [lookupName_cons_ne hdep]
        exact hlook
      · by_cases hp : hasPathConnecting s dep_node node = true
        · simp [add_deps_loop, hl, hp]
        · simp only [add_deps_loop, hl, hp, if_neg, Bool.not_eq_true]
          exact ih _ name hlook hmem2

/-- Claim C8: a with-deps registration whose dependency list contains the
registered name itself fails with WouldCycle, whether or not the name was
already present in the table before the call (the only assumption is the
always-maintained table well-formedness of C9). -/
theorem c8_self_dependency_would_cycle (s : SystemBuilder) (name : String)
    (c : SystemConstructor) (deps : List String)
    (hwf : tableWFb s = true) (hmem : name ∈ deps) :
    (add_system_with_deps s name c deps).snd = Except.error SystemError.WouldCycle := by
  have hwf2 : ∀ p ∈ s.node_table, p.2 < s.nodes.length := by
    intro p hp
    exact of_decide_eq_true (List.all_eq_true.mp hwf p hp)
  rcases hl : lookupName s.node_table name with _ | node0
  · have himpl := add_system_impl_vacant c hl
    have hloop := add_deps_loop_self_cycle s.nodes.length deps
        { s with nodes := s.nodes ++ [some c],
                 node_table := (name, s.nodes.length) :: s.node_table } name
        (lookupName_cons_self _ _ _) hmem
    rcases hres : add_deps_loop s.nodes.length deps
        { s with nodes := s.nodes ++ [some c],
                 node_table := (name, s.nodes.length) :: s.node_table } with ⟨s2, r2⟩
    rw [hres] at hloop
    simp only at hloop
    rw [hloop] at hres
    simp [add_system_with_deps, himpl, hres]
  · have hlt : node0 < s.nodes.length := hwf2 _ (lookupName_mem hl)
    have himpl := add_system_impl_occupied c hl hlt
    have hloop := add_deps_loop_self_cycle node0 deps
        { s with nodes := s.nodes.set node0 (some c) } name hl hmem
    rcases hres : add_deps_loop node0 deps
        { s with nodes := s.nodes.set node0 (some c) } with ⟨s2, r2⟩
    rw [hres] at hloop
    simp only at hloop
    rw [hloop] at hres
    simp [add_system_with_deps, himpl, hres]

/-- Claim C8 witness: on a fresh builder, registering X with the dependency
list containing X itself fails with WouldCycle. -/
theorem c8_self_dependency_would_cycle_witness :
    tableWFb SystemBuilder.new = true ∧ "X" ∈ ["X"] ∧
    (add_system_with_deps SystemBuilder.new "X" (.user 0 none) ["X"]).snd =
      Except.error SystemError.WouldCycle :=
  ⟨by decide, by decide,
    c8_self_dependency_would_cycle SystemBuilder.new "X" (.user 0 none) ["X"]
      (by decide) (by decide)⟩

theorem reaches_mono {s s2 : SystemBuilder} (h : ∀ e ∈ s.edges, e ∈ s2.edges)
    {a b : Nat} (hr : Reaches s a b) : Reaches s2 a b :=
  Relation.ReflTransGen.mono (fun x y hxy => h (x, y) hxy) hr

theorem add_system_impl_edges (s : SystemBuilder) (name : String) (c : SystemConstructor) :
    (add_system_impl s name c).fst.edges = s.edges := by
  rcases hl : lookupName s.node_table name with _ | node
  · rw [add_system_impl_vacant c hl]
  · by_cases hlt : node < s.nodes.length
    · rw [add_system_impl_occupied c hl hlt]
    · simp [add_system_impl, hl, hlt]

theorem add_system_impl_root (s : SystemBuilder) (name : String) (c : SystemConstructor) :
    (add_system_impl s name c).fst.root = s.root := by
  rcases hl : lookupName s.node_table name with _ | node
  · rw [add_system_impl_vacant c hl]
  · by_cases hlt : node < s.nodes.length
    · rw [add_system_impl_occupied c hl hlt]
    · simp [add_system_impl, hl, hlt]

theorem add_system_impl_error_state {s : SystemBuilder} {name : String}
    {c : SystemConstructor} {e : SystemError}
    (hr : (add_system_impl s name c).snd = Except.error e) :
    (add_system_impl s name c).fst = s := by
  rcases hl : lookupName s.node_table name with _ | node0
  · rw [add_system_impl_vacant c hl] at hr
    cases hr
  · by_cases hlt : node0 < s.nodes.length
    · rw [add_system_impl_occupied c hl hlt] at hr
      cases hr
    · simp [add_system_impl, hl, hlt]

/-- Nodes other than the freshly registered one keep their reachability
through add_system_impl (which never touches the edges). -/
theorem add_system_impl_reach_except {s : SystemBuilder} {name : String}
    {c : SystemConstructor} {node : Nat} (hall : AllReachable s)
    (hr : (add_system_impl s name c).snd = Except.ok node) :
    ∀ i, i < (add_system_impl s name c).fst.nodes.length → i ≠ node →
      Reaches (add_system_impl s name c).fst (add_system_impl s name c).fst.root i := by
  intro i hi hine
  have hedges := add_system_impl_edges s name c
  have hroot := add_system_impl_root s name c
  have hlt : i < s.nodes.length := by
    rcases hl : lookupName s.node_table name with _ | node0
    · rw [add_system_impl_vacant c hl] at hr hi
      cases hr
      simp at hi
      omega
    · by_cases hb : node0 < s.nodes.length
      · rw [add_system_impl_occupied c hl hb] at hi
        simpa using hi
      · rw [show (add_system_impl s name c).fst = s by
          simp [add_system_impl, hl, hb]] at hi
        exact hi
  rw [hroot]
  exact reaches_mono (by rw [hedges]; exact fun e he => he) (hall i hlt)

theorem add_deps_loop_root (node : Nat) :
    ∀ (deps : List String) (s : SystemBuilder),
      (add_deps_loop node deps s).fst.root = s.root := by
  intro deps
  induction deps with
  | nil => intro s; rfl
  | cons dep rest ih =>
    intro s
    rcases hl : lookupName s.node_table dep with _ | dep_node
    · simp only [add_deps_loop, hl]
      exact ih _
    · by_cases hp : hasPathConnecting s dep_node node = true
      · simp [add_deps_loop, hl, hp]
      · simp only [add_deps_loop, hl, hp, if_neg, Bool.not_eq_true]
        exact ih _

/-- The dependency loop preserves full reachability from the root: every
placeholder it creates is immediately root-anchored and edges are only ever
added. -/
theorem add_deps_loop_allReachable (node : Nat) :
    ∀ (deps : List String) (s : SystemBuilder), s.root = 0 → AllReachable s →
      AllReachable (add_deps_loop node deps s).fst := by
  intro deps
  induction deps with
  | nil => intro s _ hall; exact hall
  | cons dep rest ih =>
    intro s hroot hall
    rcases hl : lookupName s.node_table dep with _ | dep_node
    · simp only [add_deps_loop, hl]
      refine ih _ hroot ?_
      intro i hi
      simp only at hi ⊢
      by_cases hilen : i = s.nodes.length
      · subst hilen
        refine Relation.ReflTransGen.single ?_
        show (s.root, s.nodes.length) ∈ _
        simp
      · have hle : i < s.nodes.length := by
          simp at hi
          omega
        refine reaches_mono ?_ (hall i hle)
        intro e he
        simp [he]
    · by_cases hp : hasPathConnecting s dep_node node = true
      · simp only [add_deps_loop, hl, hp, if_pos]
        exact hall
      · simp only [add_deps_loop, hl, hp, if_neg, Bool.not_eq_true]
        refine ih _ hroot ?_
        intro i hi
        simp only at hi ⊢
        refine reaches_mono ?_ (hall i hi)
        intro e he
        simp [he]

/-- A successful dependency loop over a nonempty dependency list makes the
registered node reachable (through its first dependency) and keeps every
other node reachable. -/
theorem add_deps_loop_reach (node : Nat) (deps : List String) (s : SystemBuilder)
    (hne : deps ≠ []) (hroot : s.root = 0)
    (htab : ∀ p ∈ s.node_table, p.2 < s.nodes.length)
    (hnode : node < s.nodes.length)
    (hreach : ∀ i, i < s.nodes.length → i ≠ node → Reaches s s.root i)
    (hok : (add_deps_loop node deps s).snd = Except.ok ()) :
    AllReachable (add_deps_loop node deps s).fst := by
  cases deps with
  | nil => exact absurd rfl hne
  | cons dep rest =>
    rcases hl : lookupName s.node_table dep with _ | dep_node
    · simp only [add_deps_loop, hl] at hok ⊢
      refine add_deps_loop_allReachable node rest _ hroot ?_
      intro i hi
      simp only at hi ⊢
      have hchain : Reaches
          { s with nodes := s.nodes ++ [some (.missingDep dep)],
                   node_table := (dep, s.nodes.length) :: s.node_table,
                   edges := (s.edges ++ [(s.root, s.nodes.length)]) ++ [(s.nodes.length, node)] }
          s.root node := by
        have h1 : (s.root, s.nodes.length) ∈
            (s.edges ++ [(s.root, s.nodes.length)]) ++ [(s.nodes.length, node)] := by simp
        have h2 : (s.nodes.length, node) ∈
            (s.edges ++ [(s.root, s.nodes.length)]) ++ [(s.nodes.length, node)] := by simp
        exact Relation.ReflTransGen.tail (Relation.ReflTransGen.single h1) h2
      by_cases hin : i = node
      · subst hin
        exact hchain
      · by_cases hilen : i = s.nodes.length
        · subst hilen
          refine Relation.ReflTransGen.single ?_
          show (s.root, s.nodes.length) ∈ _
          simp
        · have hle : i < s.nodes.length := by
            simp at hi
            omega
          refine reaches_mono ?_ (hreach i hle hin)
          intro e he
          simp [he]
    · by_cases hp : hasPathConnecting s dep_node node = true
      · rw [show (add_deps_loop node (dep :: rest) s).snd =
            Except.error SystemError.WouldCycle by simp [add_deps_loop, hl, hp]] at hok
        cases hok
      · simp only [add_deps_loop, hl, hp, if_neg, Bool.not_eq_true] at hok ⊢
        have hdlt : dep_node < s.nodes.length := htab _ (lookupName_mem hl)
        have hdne : dep_node ≠ node := by
          intro he
          rw [he] at hp
          exact hp (hasPathConnecting_refl s node)
        refine add_deps_loop_allReachable node rest _ hroot ?_
        intro i hi
        simp only at hi ⊢
        by_cases hin : i = node
        · subst hin
          refine Relation.ReflTransGen.tail
            (reaches_mono ?_ (hreach dep_node hdlt hdne)) ?_
          · intro e he
            simp [he]
          · show (dep_node, i) ∈ _
            simp
        · refine reaches_mono ?_ (hreach i hi hin)
          intro e he
          simp [he]

/-- A successful add_system call keeps every node reachable from the root:
the registered node gets a fresh root edge and nothing else changes. -/
theorem c5_step_add (s : SystemBuilder) (name : String) (c : SystemConstructor)
    (hall : AllReachable s) :
    AllReachable (add_system s name c).fst := by
  rcases himpl : add_system_impl s name c with ⟨s1, r⟩
  cases r with
  | error e =>
    have hst : s1 = s := by
      have := add_system_impl_error_state (e := e) (by rw [himpl])
      rw [himpl] at this
      exact this
    simp only [add_system, himpl, hst]
    exact hall
  | ok node =>
    have hexc := add_system_impl_reach_except hall (by rw [himpl] : _ = Except.ok node)
    rw [himpl] at hexc
    simp only at hexc
    simp only [add_system, himpl]
    intro i hi
    simp only at hi ⊢
    by_cases hin : i = node
    · subst hin
      exact Relation.ReflTransGen.single (by show (s1.root, i) ∈ _; simp)
    · refine reaches_mono ?_ (hexc i hi hin)
      intro e2 he2
      simp [he2]

/-- A successful with-deps call with a nonempty dependency list keeps every
node reachable from the root. -/
theorem c5_step_withDeps (s : SystemBuilder) (name : String) (c : SystemConstructor)
    (deps : List String) (hcore : CoreInv s) (hall : AllReachable s)
    (hne : deps ≠ [])
    (hok : isOk (add_system_with_deps s name c deps).snd = true) :
    AllReachable (add_system_with_deps s name c deps).fst := by
  rcases himpl : add_system_impl s name c with ⟨s1, r⟩
  cases r with
  | error e =>
    rw [show (add_system_with_deps s name c deps).snd = Except.error e by
      simp [add_system_with_deps, himpl]] at hok
    cases hok
  | ok node =>
    have hcore1 : CoreInv s1 := by
      have := coreInv_add_system_impl s name c hcore
      rw [himpl] at this
      exact this
    have hspec := add_system_impl_ok_spec hcore (by rw [himpl] : _ = Except.ok node)
    rw [himpl] at hspec
    simp only at hspec
    obtain ⟨hnode, _, hroot1, _⟩ := hspec
    have hexc := add_system_impl_reach_except hall (by rw [himpl] : _ = Except.ok node)
    rw [himpl] at hexc
    simp only at hexc
    rcases hres : add_deps_loop node deps s1 with ⟨s2, r2⟩
    cases r2 with
    | error e =>
      rw [show (add_system_with_deps s name c deps).snd = Except.error e by
        simp [add_system_with_deps, himpl, hres]] at hok
      cases hok
    | ok u =>
      cases u
      have hroot0 : s1.root = 0 := by
        rw [hroot1, hcore.root_eq]
      have hreach2 := add_deps_loop_reach node deps s1 hne hroot0 hcore1.table_lt hnode
        hexc (by rw [hres])
      rw [hres] at hreach2
      simp only at hreach2
      simp only [add_system_with_deps, himpl, hres]
      exact hreach2

theorem allReachable_new : AllReachable SystemBuilder.new := by
  intro i hi
  have h0 : i = 0 := by
    have : i < 1 := hi
    omega
  subst h0
  exact Relation.ReflTransGen.refl

theorem c5_allReachable : ∀ (ops : List Op) (s : SystemBuilder), CoreInv s →
    AllReachable s → opsOk s ops = true →
    (∀ op ∈ ops, opDepsNonempty op = true) →
    AllReachable (runOps s ops) := by
  intro ops
  induction ops with
  | nil => intro s _ hall _ _; exact hall
  | cons op rest ih =>
    intro s hcore hall hok hne
    obtain ⟨hok1, hokr⟩ : isOk (runOp s op).snd = true ∧
        opsOk (runOp s op).fst rest = true := by
      have h2 : (isOk (runOp s op).snd && opsOk (runOp s op).fst rest) = true := hok
      simpa using h2
    have hstep : AllReachable (runOp s op).fst := by
      cases op with
      | add name c => exact c5_step_add s name c hall
      | addWithDeps name c deps =>
        have hdne : deps ≠ [] := by
          have hb := hne _ (List.mem_cons_self _ _)
          simp only [opDepsNonempty, Bool.not_eq_true'] at hb
          intro hd
          rw [hd] at hb
          cases hb
        exact c5_step_withDeps s name c deps hcore hall hdne hok1
    exact ih (runOp s op).fst (coreInv_runOp s op hcore) hstep hokr
      (fun op2 h2 => hne op2 (List.mem_cons_of_mem _ h2))

/-- Claim C5 (amended): in a call sequence in which every call returns Ok
and every with-deps call declares at least one dependency, every non-root
node is reachable from the root.  (The unamended claim fails because a node
first created by add_system_with_deps receives no root-anchoring edge; with
an empty dependency list it is left unreachable, see the counterexample.) -/
theorem c5_amended_root_reachability (ops : List Op)
    (hok : opsOk SystemBuilder.new ops = true)
    (hne : ops.all opDepsNonempty = true) :
    ∀ i, i < (builderAfter ops).nodes.length → i ≠ (builderAfter ops).root →
      Reaches (builderAfter ops) (builderAfter ops).root i := by
  intro i hi _
  exact c5_allReachable ops SystemBuilder.new coreInv_new allReachable_new hok
    (fun op h => List.all_eq_true.mp hne op h) i hi

/-- Claim C5 witness: registering A dependency free and then B depending on
A yields a builder in which node 2 (B) is reachable from the root. -/
theorem c5_amended_root_reachability_witness :
    opsOk SystemBuilder.new c5WitnessOps = true ∧
    c5WitnessOps.all opDepsNonempty = true ∧
    Reaches (builderAfter c5WitnessOps) (builderAfter c5WitnessOps).root 2 :=
  ⟨by decide, by decide,
    c5_amended_root_reachability c5WitnessOps (by decide) (by decide) 2
      (by decide) (by decide)⟩

theorem mem_neighbors {edges : List (Nat × Nat)} {a m : Nat} :
    m ∈ neighbors edges a ↔ (a, m) ∈ edges := by
  simp only [neighbors, List.mem_reverse, List.mem_map, List.mem_filter]
  constructor
  · rintro ⟨e, ⟨he, heq⟩, rfl⟩
    obtain ⟨x, y⟩ := e
    have hx : x = a := by simpa using heq
    simpa [hx] using he
  · intro h
    exact ⟨(a, m), ⟨h, by simp⟩, rfl⟩

/-- The main DFS lemma: with enough fuel (measured by stack size plus a
budget for every undiscovered node), the traversal processes its entire
stack, and its output is exactly a set of newly discovered nodes that is
closed under successors up to the initially discovered set. -/
theorem dfsLoop_spec (edges : List (Nat × Nat)) (V : Nat)
    (hE : ∀ e ∈ edges, e.2 < V) :
    ∀ (fuel : Nat) (stack disc : List Nat),
      (∀ n ∈ stack, n < V) → (∀ n ∈ disc, n < V) → disc.Nodup →
      stack.length + (V - disc.length) * (1 + edges.length) ≤ fuel →
      (∀ m ∈ stack, m ∈ disc ∨ m ∈ dfsLoop edges fuel stack disc) ∧
      (∀ n ∈ dfsLoop edges fuel stack disc, n ∉ disc ∧ n < V ∧
        ∀ m ∈ neighbors edges n, m ∈ disc ∨ m ∈ dfsLoop edges fuel stack disc) := by
  intro fuel
  induction fuel with
  | zero =>
    intro stack disc hs hd hnd hf
    have hstack : stack = [] := by
      cases stack with
      | nil => rfl
      | cons a t =>
        simp only [List.length_cons] at hf
        omega
    subst hstack
    exact ⟨fun m hm => absurd hm (List.not_mem_nil m),
      fun n hn => absurd hn (by simp [dfsLoop])⟩
  | succ fuel ih =>
    intro stack disc hs hd hnd hf
    cases stack with
    | nil =>
      exact ⟨fun m hm => absurd hm (List.not_mem_nil m),
        fun n hn => absurd hn (by simp [dfsLoop])⟩
    | cons n rest =>
      by_cases hmem : n ∈ disc
      · have heq : dfsLoop edges (fuel + 1) (n :: rest) disc =
            dfsLoop edges fuel rest disc := by
          simp [dfsLoop, hmem]
        have hf2 : rest.length + (V - disc.length) * (1 + edges.length) ≤ fuel := by
          simp only [List.length_cons] at hf
          omega
        obtain ⟨ha, hb⟩ := ih rest disc
          (fun m hm => hs m (List.mem_cons_of_mem _ hm)) hd hnd hf2
        rw [heq]
        refine ⟨?_, hb⟩
        intro m hm
        rcases List.mem_cons.mp hm with rfl | hm2
        · exact Or.inl hmem
        · exact ha m hm2
      · have hnV : n < V := hs n (List.mem_cons_self _ _)
        have hdlen : disc.length < V := by
          have hnd2 : (n :: disc).Nodup := List.nodup_cons.mpr ⟨hmem, hnd⟩
          have hcard : (n :: disc).toFinset.card = (n :: disc).length :=
            List.toFinset_card_of_nodup hnd2
          have hsub : (n :: disc).toFinset ⊆ Finset.range V := by
            intro m hm
            rcases List.mem_cons.mp (List.mem_toFinset.mp hm) with rfl | hm2
            · exact Finset.mem_range.mpr hnV
            · exact Finset.mem_range.mpr (hd m hm2)
          have := Finset.card_le_card hsub
          rw [hcard, Finset.card_range] at this
          simp only [List.length_cons] at this
          omega
        have heq : dfsLoop edges (fuel + 1) (n :: rest) disc =
            n :: dfsLoop edges fuel
              ((((neighbors edges n).filter (fun m => decide (m ∉ n :: disc))).reverse) ++ rest)
              (n :: disc) := by
          simp [dfsLoop, hmem]
        have hpushlen :
            ((((neighbors edges n).filter (fun m => decide (m ∉ n :: disc))).reverse)).length ≤
              edges.length := by
          rw [List.length_reverse]
          calc ((neighbors edges n).filter (fun m => decide (m ∉ n :: disc))).length
              ≤ (neighbors edges n).length := List.length_filter_le _ _
            _ ≤ edges.length := by
                simp only [neighbors, List.length_reverse, List.length_map]
                exact List.length_filter_le _ _
        have hk : (V - disc.length) * (1 + edges.length) =
            (V - (disc.length + 1)) * (1 + edges.length) + (1 + edges.length) := by
          have hsplit : V - disc.length = (V - (disc.length + 1)) + 1 := by omega
          rw [hsplit, Nat.succ_mul]
        have hf2 : ((((neighbors edges n).filter
              (fun m => decide (m ∉ n :: disc))).reverse) ++ rest).length +
            (V - (n :: disc).length) * (1 + edges.length) ≤ fuel := by
          rw [List.length_append]
          simp only [List.length_cons] at hf ⊢
          omega
        have hstack2 : ∀ m ∈ (((neighbors edges n).filter
            (fun m => decide (m ∉ n :: disc))).reverse) ++ rest, m < V := by
          intro m hm
          rcases List.mem_append.mp hm with hm2 | hm2
          · rw [List.mem_reverse] at hm2
            have := (List.mem_filter.mp hm2).1
            exact hE _ (mem_neighbors.mp this)
          · exact hs m (List.mem_cons_of_mem _ hm2)
        have hdisc2 : ∀ m ∈ n :: disc, m < V := by
          intro m hm
          rcases List.mem_cons.mp hm with rfl | hm2
          · exact hnV
          · exact hd m hm2
        obtain ⟨ha, hb⟩ := ih _ (n :: disc) hstack2 hdisc2
          (List.nodup_cons.mpr ⟨hmem, hnd⟩) hf2
        rw [heq]
        constructor
        · intro m hm
          rcases List.mem_cons.mp hm with rfl | hm2
          · exact Or.inr (List.mem_cons_self _ _)
          · rcases ha m (List.mem_append_right _ hm2) with hm3 | hm3
            · rcases List.mem_cons.mp hm3 with rfl | hm4
              · exact Or.inr (List.mem_cons_self _ _)
              · exact Or.inl hm4
            · exact Or.inr (List.mem_cons_of_mem _ hm3)
        · intro n2 hn2
          rcases List.mem_cons.mp hn2 with rfl | hn3
          · refine ⟨hmem, hnV, ?_⟩
            intro m hmn
            by_cases hmd : m ∈ n2 :: disc
            · rcases List.mem_cons.mp hmd with rfl | hm4
              · exact Or.inr (List.mem_cons_self _ _)
              · exact Or.inl hm4
            · have hmp : m ∈ (((neighbors edges n2).filter
                  (fun m => decide (m ∉ n2 :: disc))).reverse) ++ rest := by
                refine List.mem_append_left _ ?_
                rw [List.mem_reverse]
                exact List.mem_filter.mpr ⟨hmn, by simpa using hmd⟩
              rcases ha m hmp with hm3 | hm3
              · exact absurd hm3 hmd
              · exact Or.inr (List.mem_cons_of_mem _ hm3)
          · obtain ⟨hnotin, hV2, hcl⟩ := hb n2 hn3
            refine ⟨fun hc => hnotin (List.mem_cons_of_mem _ hc), hV2, ?_⟩
            intro m hmn
            rcases hcl m hmn with hm3 | hm3
            · rcases List.mem_cons.mp hm3 with rfl | hm4
              · exact Or.inr (List.mem_cons_self _ _)
              · exact Or.inl hm4
            · exact Or.inr (List.mem_cons_of_mem _ hm3)

/-- DFS completeness: every node reachable from the start of the traversal
appears in the visit order. -/
theorem dfsVisit_complete (s : SystemBuilder)
    (h0 : s.root < s.nodes.length)
    (hE : ∀ e ∈ s.edges, e.2 < s.nodes.length) :
    ∀ p, Reaches s s.root p → p ∈ dfsVisit s s.root := by
  have hf : ([s.root].length : Nat) +
      (s.nodes.length - ([] : List Nat).length) * (1 + s.edges.length) ≤ dfsFuel s := by
    simp only [List.length_singleton, List.length_nil, Nat.sub_zero, dfsFuel]
    omega
  obtain ⟨ha, hb⟩ := dfsLoop_spec s.edges s.nodes.length hE (dfsFuel s) [s.root] []
    (by intro m hm; rcases List.mem_cons.mp hm with rfl | h2
        · exact h0
        · cases h2)
    (by intro m hm; cases hm) List.nodup_nil hf
  have hroot : s.root ∈ dfsVisit s s.root := by
    rcases ha s.root (List.mem_cons_self _ _) with h | h
    · cases h
    · exact h
  intro p hp
  induction hp with
  | refl => exact hroot
  | tail hab hbc ih =>
    rename_i b c2
    rcases (hb b ih).2.2 c2 (mem_neighbors.mpr hbc) with h | h
    · cases h
    · exact h

theorem registered_append {ops : List Op} {op : Op} {m : String} :
    Registered (ops ++ [op]) m ↔ Registered ops m ∨ opRegisters op m = true := by
  constructor
  · rintro ⟨op2, hmem, hreg⟩
    rcases List.mem_append.mp hmem with h | h
    · exact Or.inl ⟨op2, h, hreg⟩
    · simp only [List.mem_singleton] at h
      subst h
      exact Or.inr hreg
  · rintro (⟨op2, hmem, hreg⟩ | hreg)
    · exact ⟨op2, List.mem_append_left _ hmem, hreg⟩
    · exact ⟨op, List.mem_append_right _ (List.mem_cons_self _ _), hreg⟩

theorem mentioned_append {ops : List Op} {op : Op} {m : String} :
    MentionedDep (ops ++ [op]) m ↔ MentionedDep ops m ∨ m ∈ opDeps op := by
  constructor
  · rintro ⟨op2, hmem, hdep⟩
    rcases List.mem_append.mp hmem with h | h
    · exact Or.inl ⟨op2, h, hdep⟩
    · simp only [List.mem_singleton] at h
      subst h
      exact Or.inr hdep
  · rintro (⟨op2, hmem, hdep⟩ | hdep)
    · exact ⟨op2, List.mem_append_left _ hmem, hdep⟩
    · exact ⟨op, List.mem_append_right _ (List.mem_cons_self _ _), hdep⟩

theorem opRegisters_iff {op : Op} {m : String} :
    opRegisters op m = true ↔ opName op = m := by
  simp [opRegisters]

theorem lookupName_cons_mono {t : List (String × Nat)} {k : String} {v : Nat}
    {m : String} {q : Nat} (hl : lookupName t k = none)
    (h : lookupName t m = some q) : lookupName ((k, v) :: t) m = some q := by
  by_cases hk : k = m
  · subst hk
    rw [hl] at h
    cases h
  · rw [lookupName_cons_ne hk]
    exact h

theorem opCtorOk_user : ∀ {op : Op}, opCtorOk op = true →
    ∃ i, (match op with
          | Op.add _ c => c
          | Op.addWithDeps _ c _ => c) = SystemConstructor.user i none := by
  intro op h
  cases op with
  | add name c =>
    cases c with
    | user i r =>
      cases r with
      | none => exact ⟨i, rfl⟩
      | some e => cases h
    | missingDep m => cases h
  | addWithDeps name c deps =>
    cases c with
    | user i r =>
      cases r with
      | none => exact ⟨i, rfl⟩
      | some e => cases h
    | missingDep m => cases h

/-- Registration bookkeeping across add_system_impl: called with the user
constructor of a call registering the given name, it keeps all table and
payload invariants, makes the name resolvable, and never creates or keeps a
placeholder for a name the extended call sequence registers. -/
theorem builderInv_after_impl (ops : List Op) (op : Op) (s : SystemBuilder)
    (name : String) (c : SystemConstructor) (node : Nat)
    (hinv : BuilderInv ops s)
    (hnm : opName op = name)
    (hc : ∃ i, c = SystemConstructor.user i none)
    (hr : (add_system_impl s name c).snd = Except.ok node) :
    (∀ m, Registered (ops ++ [op]) m →
      ∃ q, lookupName (add_system_impl s name c).fst.node_table m = some q) ∧
    (∀ p ∈ (add_system_impl s name c).fst.node_table, Registered (ops ++ [op]) p.1 ∨
      (add_system_impl s name c).fst.nodes.getD p.2 none =
        some (SystemConstructor.missingDep p.1)) ∧
    (∀ q m, (add_system_impl s name c).fst.nodes.getD q none =
        some (SystemConstructor.missingDep m) →
      lookupName (add_system_impl s name c).fst.node_table m = some q ∧
      (0, q) ∈ (add_system_impl s name c).fst.edges ∧
      MentionedDep (ops ++ [op]) m ∧ ¬ Registered (ops ++ [op]) m) ∧
    (∀ q c2, (add_system_impl s name c).fst.nodes.getD q none = some c2 →
      (∃ m2, c2 = SystemConstructor.missingDep m2) ∨
      ∃ i2, c2 = SystemConstructor.user i2 none) ∧
    (∀ m q, lookupName s.node_table m = some q →
      lookupName (add_system_impl s name c).fst.node_table m = some q) := by
  obtain ⟨i, rfl⟩ := hc
  have hregop : opRegisters op name = true := opRegisters_iff.mpr hnm
  rcases hl : lookupName s.node_table name with _ | node0
  · rw [add_system_impl_vacant _ hl] at hr ⊢
    cases hr
    refine ⟨?_, ?_, ?_, ?_, ?_⟩
    · intro m hm
      rcases registered_append.mp hm with hm2 | hm2
      · obtain ⟨q, hq⟩ := hinv.registered_mem m hm2
        exact ⟨q, lookupName_cons_mono hl hq⟩
      · have hmn : m = name := by
          rw [← hnm]
          exact (opRegisters_iff.mp hm2).symm
        subst hmn
        exact ⟨s.nodes.length, lookupName_cons_self _ _ _⟩
    · intro p hp
      rcases List.mem_cons.mp hp with rfl | hp2
      · exact Or.inl (registered_append.mpr (Or.inr hregop))
      · rcases hinv.table_state p hp2 with h2 | h2
        · exact Or.inl (registered_append.mpr (Or.inl h2))
        · right
          rw [getD_append_lt _ _ _ _ (hinv.core.table_lt p hp2)]
          exact h2
    · intro q m hq
      have hqlt : q < s.nodes.length + 1 := by simpa using getD_some_lt hq
      by_cases hql : q = s.nodes.length
      · subst hql
        rw [getD_append_len] at hq
        cases hq
      · have hqs : q < s.nodes.length := by omega
        rw [getD_append_lt _ _ _ _ hqs] at hq
        obtain ⟨hlk, hedge, hment, hnreg⟩ := hinv.missing_char q m hq
        refine ⟨lookupName_cons_mono hl hlk, hedge,
          mentioned_append.mpr (Or.inl hment), ?_⟩
        intro hreg2
        rcases registered_append.mp hreg2 with h2 | h2
        · exact hnreg h2
        · have hmn : m = name := by
            rw [← hnm]
            exact (opRegisters_iff.mp h2).symm
          rw [hmn, hl] at hlk
          cases hlk
    · intro q c2 hq
      have hqlt : q < s.nodes.length + 1 := by simpa using getD_some_lt hq
      by_cases hql : q = s.nodes.length
      · subst hql
        rw [getD_append_len] at hq
        cases hq
        exact Or.inr ⟨i, rfl⟩
      · have hqs : q < s.nodes.length := by omega
        rw [getD_append_lt _ _ _ _ hqs] at hq
        exact hinv.payload_class q c2 hq
    · intro m q hq
      exact lookupName_cons_mono hl hq
  · have hlt : node0 < s.nodes.length := hinv.core.table_lt _ (lookupName_mem hl)
    rw [add_system_impl_occupied _ hl hlt] at hr ⊢
    cases hr
    refine ⟨?_, ?_, ?_, ?_, ?_⟩
    · intro m hm
      rcases registered_append.mp hm with hm2 | hm2
      · exact hinv.registered_mem m hm2
      · have hmn : m = name := by
          rw [← hnm]
          exact (opRegisters_iff.mp hm2).symm
        subst hmn
        exact ⟨node, hl⟩
    · intro p hp
      rcases hinv.table_state p hp with h2 | h2
      · exact Or.inl (registered_append.mpr (Or.inl h2))
      · by_cases hpn : p.2 = node
        · left
          refine registered_append.mpr (Or.inr ?_)
          have hpe : p.1 = name :=
            hinv.core.table_inj p hp (name, node) (lookupName_mem hl) hpn
          exact opRegisters_iff.mpr (by rw [hpe]; exact hnm)
        · right
          rw [getD_set_ne _ _ _ _ _ (fun he => hpn he.symm)]
          exact h2
    · intro q m hq
      by_cases hqn : q = node
      · subst hqn
        rw [getD_set_self _ _ _ _ hlt] at hq
        cases hq
      · rw [getD_set_ne _ _ _ _ _ (fun he => hqn he.symm)] at hq
        obtain ⟨hlk, hedge, hment, hnreg⟩ := hinv.missing_char q m hq
        refine ⟨hlk, hedge, mentioned_append.mpr (Or.inl hment), ?_⟩
        intro hreg2
        rcases registered_append.mp hreg2 with h2 | h2
        · exact hnreg h2
        · have hmn : m = name := by
            rw [← hnm]
            exact (opRegisters_iff.mp h2).symm
          rw [hmn, hl] at hlk
          cases hlk
          exact hqn rfl
    · intro q c2 hq
      by_cases hqn : q = node
      · subst hqn
        rw [getD_set_self _ _ _ _ hlt] at hq
        cases hq
        exact Or.inr ⟨i, rfl⟩
      · rw [getD_set_ne _ _ _ _ _ (fun he => hqn he.symm)] at hq
        exact hinv.payload_class q c2 hq
    · intro m q hq
      exact hq

theorem coreInv_placeholder (s : SystemBuilder) (dep : String) (node : Nat)
    (h : CoreInv s) (hnode : node < s.nodes.length) (hne : node ≠ 0) :
    CoreInv { s with nodes := s.nodes ++ [some (.missingDep dep)],
                     node_table := (dep, s.nodes.length) :: s.node_table,
                     edges := (s.edges ++ [(s.root, s.nodes.length)]) ++
                       [(s.nodes.length, node)] } := by
  have hlen := h.len_pos
  refine ⟨h.root_eq, by simp, ?_, ?_, ?_, ?_, ?_, ?_, ?_⟩
  · intro p hp
    rcases List.mem_cons.mp hp with rfl | hp2
    · simp
    · have := h.table_lt p hp2
      simp
      omega
  · intro p hp
    rcases List.mem_cons.mp hp with rfl | hp2
    · show s.nodes.length ≠ 0
      omega
    · exact h.table_ne_root p hp2
  · intro p hp q hq hv
    rcases List.mem_cons.mp hp with rfl | hp2 <;> rcases List.mem_cons.mp hq with rfl | hq2
    · rfl
    · exact absurd hv.symm (Nat.ne_of_lt (h.table_lt q hq2))
    · exact absurd hv (Nat.ne_of_lt (h.table_lt p hp2))
    · exact h.table_inj p hp2 q hq2 hv
  · intro e he
    simp only [List.append_assoc, List.mem_append] at he
    rcases he with he | he
    · have := h.edges_src_lt e he
      simp
      omega
    · simp at he
      rcases he with rfl | rfl
      · simp [h.root_eq]
      · simp
  · intro e he
    simp only [List.append_assoc, List.mem_append] at he
    rcases he with he | he
    · have := h.edges_tgt_lt e he
      simp
      omega
    · simp at he
      rcases he with rfl | rfl
      · simp
      · simp
        omega
  · intro e he
    simp only [List.append_assoc, List.mem_append] at he
    rcases he with he | he
    · exact h.edges_tgt_ne_root e he
    · simp at he
      rcases he with rfl | rfl
      · show s.nodes.length ≠ 0
        omega
      · exact hne
  · rw [getD_append_lt _ _ _ _ hlen]
    exact h.root_payload

theorem coreInv_add_edge (s : SystemBuilder) (a b : Nat) (h : CoreInv s)
    (ha : a < s.nodes.length) (hb : b < s.nodes.length) (hbne : b ≠ 0) :
    CoreInv { s with edges := s.edges ++ [(a, b)] } := by
  refine ⟨h.root_eq, by simpa using h.len_pos, by simpa using h.table_lt,
    h.table_ne_root, h.table_inj, ?_, ?_, ?_, by simpa using h.root_payload⟩
  · intro e he
    rcases List.mem_append.mp he with he | he
    · simpa using h.edges_src_lt e he
    · simp at he
      rw [he]
      simpa using ha
  · intro e he
    rcases List.mem_append.mp he with he | he
    · simpa using h.edges_tgt_lt e he
    · simp at he
      rw [he]
      simpa using hb
  · intro e he
    rcases List.mem_append.mp he with he | he
    · exact h.edges_tgt_ne_root e he
    · simp at he
      rw [he]
      exact hbne

/-- The dependency-loop bookkeeping: when the loop succeeds, lookups are
preserved, every processed dependency name is resolvable, and the table,
placeholder and payload invariants are maintained (relative to the full
extended call sequence opsAll). -/
theorem add_deps_loop_inv (opsAll : List Op) (node : Nat) :
    ∀ (deps : List String) (s : SystemBuilder),
      CoreInv s → node < s.nodes.length → node ≠ 0 →
      (∀ d ∈ deps, MentionedDep opsAll d) →
      (∀ m, Registered opsAll m → ∃ q, lookupName s.node_table m = some q) →
      (∀ p ∈ s.node_table, Registered opsAll p.1 ∨
        s.nodes.getD p.2 none = some (SystemConstructor.missingDep p.1)) →
      (∀ q m, s.nodes.getD q none = some (SystemConstructor.missingDep m) →
        lookupName s.node_table m = some q ∧ (0, q) ∈ s.edges ∧
        MentionedDep opsAll m ∧ ¬ Registered opsAll m) →
      (∀ q c, s.nodes.getD q none = some c →
        (∃ m, c = SystemConstructor.missingDep m) ∨
        ∃ i, c = SystemConstructor.user i none) →
      (add_deps_loop node deps s).snd = Except.ok () →
      (∀ m q, lookupName s.node_table m = some q →
        lookupName (add_deps_loop node deps s).fst.node_table m = some q) ∧
      (∀ d ∈ deps, ∃ q,
        lookupName (add_deps_loop node deps s).fst.node_table d = some q) ∧
      (∀ p ∈ (add_deps_loop node deps s).fst.node_table, Registered opsAll p.1 ∨
        (add_deps_loop node deps s).fst.nodes.getD p.2 none =
          some (SystemConstructor.missingDep p.1)) ∧
      (∀ q m, (add_deps_loop node deps s).fst.nodes.getD q none =
          some (SystemConstructor.missingDep m) →
        lookupName (add_deps_loop node deps s).fst.node_table m = some q ∧
        (0, q) ∈ (add_deps_loop node deps s).fst.edges ∧
        MentionedDep opsAll m ∧ ¬ Registered opsAll m) ∧
      (∀ q c, (add_deps_loop node deps s).fst.nodes.getD q none = some c →
        (∃ m, c = SystemConstructor.missingDep m) ∨
        ∃ i, c = SystemConstructor.user i none) := by
  intro deps
  induction deps with
  | nil =>
    intro s hcore hnode hne hment hreg htabst hmiss hpc hok
    exact ⟨fun m q hq => hq, fun d hd => absurd hd (List.not_mem_nil d),
      htabst, hmiss, hpc⟩
  | cons dep rest ih =>
    intro s hcore hnode hne hment hreg htabst hmiss hpc hok
    rcases hl : lookupName s.node_table dep with _ | dep_node
    · simp only [add_deps_loop, hl] at hok ⊢
      have hcore2 := coreInv_placeholder s dep node hcore hnode hne
      have hnode2 : node <
          (s.nodes ++ [some (SystemConstructor.missingDep dep)]).length := by
        simp
        omega
      have hreg2 : ∀ m, Registered opsAll m →
          ∃ q, lookupName ((dep, s.nodes.length) :: s.node_table) m = some q := by
        intro m hm
        obtain ⟨q, hq⟩ := hreg m hm
        exact ⟨q, lookupName_cons_mono hl hq⟩
      have hnr : ¬ Registered opsAll dep := by
        intro hr2
        obtain ⟨q, hq⟩ := hreg dep hr2
        rw [hl] at hq
        cases hq
      have htabst2 : ∀ p ∈ (dep, s.nodes.length) :: s.node_table,
          Registered opsAll p.1 ∨
          (s.nodes ++ [some (SystemConstructor.missingDep dep)]).getD p.2 none =
            some (SystemConstructor.missingDep p.1) := by
        intro p hp
        rcases List.mem_cons.mp hp with rfl | hp2
        · exact Or.inr (getD_append_len _ _ _)
        · rcases htabst p hp2 with h2 | h2
          · exact Or.inl h2
          · right
            rw [getD_append_lt _ _ _ _ (hcore.table_lt p hp2)]
            exact h2
      have hmiss2 : ∀ q m,
          (s.nodes ++ [some (SystemConstructor.missingDep dep)]).getD q none =
            some (SystemConstructor.missingDep m) →
          lookupName ((dep, s.nodes.length) :: s.node_table) m = some q ∧
          (0, q) ∈ (s.edges ++ [(s.root, s.nodes.length)]) ++ [(s.nodes.length, node)] ∧
          MentionedDep opsAll m ∧ ¬ Registered opsAll m := by
        intro q m hq
        have hqlt : q < s.nodes.length + 1 := by simpa using getD_some_lt hq
        by_cases hql : q = s.nodes.length
        · subst hql
          rw [getD_append_len] at hq
          cases hq
          refine ⟨lookupName_cons_self _ _ _, ?_,
            hment dep (List.mem_cons_self _ _), hnr⟩
          simp [hcore.root_eq]
        · have hqs : q < s.nodes.length := by omega
          rw [getD_append_lt _ _ _ _ hqs] at hq
          obtain ⟨hlk, hedge, hm2, hn2⟩ := hmiss q m hq
          exact ⟨lookupName_cons_mono hl hlk, by simp [hedge], hm2, hn2⟩
      have hpc2 : ∀ q c,
          (s.nodes ++ [some (SystemConstructor.missingDep dep)]).getD q none = some c →
          (∃ m, c = SystemConstructor.missingDep m) ∨
          ∃ i, c = SystemConstructor.user i none := by
        intro q c hq
        have hqlt : q < s.nodes.length + 1 := by simpa using getD_some_lt hq
        by_cases hql : q = s.nodes.length
        · subst hql
          rw [getD_append_len] at hq
          cases hq
          exact Or.inl ⟨dep, rfl⟩
        · have hqs : q < s.nodes.length := by omega
          rw [getD_append_lt _ _ _ _ hqs] at hq
          exact hpc q c hq
      obtain ⟨cmono, cdeps, ctab, cmiss, cpc⟩ := ih _ hcore2 hnode2 hne
        (fun d hd => hment d (List.mem_cons_of_mem _ hd)) hreg2 htabst2 hmiss2 hpc2 hok
      refine ⟨?_, ?_, ctab, cmiss, cpc⟩
      · intro m q hq
        exact cmono m q (lookupName_cons_mono hl hq)
      · intro d hd
        rcases List.mem_cons.mp hd with rfl | hd2
        · exact ⟨s.nodes.length, cmono _ _ (lookupName_cons_self _ _ _)⟩
        · exact cdeps d hd2
    · by_cases hp : hasPathConnecting s dep_node node = true
      · rw [show (add_deps_loop node (dep :: rest) s).snd =
            Except.error SystemError.WouldCycle by simp [add_deps_loop, hl, hp]] at hok
        cases hok
      · simp only [add_deps_loop, hl, hp, if_neg, Bool.not_eq_true] at hok ⊢
        have hdlt : dep_node < s.nodes.length := hcore.table_lt _ (lookupName_mem hl)
        have hcore2 := coreInv_add_edge s dep_node node hcore hdlt hnode hne
        obtain ⟨cmono, cdeps, ctab, cmiss, cpc⟩ := ih _ hcore2 hnode hne
          (fun d hd => hment d (List.mem_cons_of_mem _ hd)) hreg htabst
          (fun q m hq => by
            obtain ⟨hlk, hedge, hm2, hn2⟩ := hmiss q m hq
            exact ⟨hlk, by simp [hedge], hm2, hn2⟩)
          hpc hok
        refine ⟨cmono, ?_, ctab, cmiss, cpc⟩
        intro d hd
        rcases List.mem_cons.mp hd with rfl | hd2
        · exact ⟨dep_node, cmono _ _ hl⟩
        · exact cdeps d hd2

theorem builderInv_new : BuilderInv [] SystemBuilder.new := by
  refine ⟨coreInv_new, ?_, ?_, ?_, ?_, ?_⟩
  · rintro m ⟨op, hop, _⟩
    cases hop
  · rintro m ⟨op, hop, _⟩
    cases hop
  · intro p hp
    cases hp
  · intro q m hq
    have hq1 : q < 1 := by
      have := getD_some_lt hq
      simpa [SystemBuilder.new] using this
    have hq0 : q = 0 := by omega
    subst hq0
    simp [SystemBuilder.new] at hq
  · intro q c hq
    have hq1 : q < 1 := by
      have := getD_some_lt hq
      simpa [SystemBuilder.new] using this
    have hq0 : q = 0 := by omega
    subst hq0
    simp [SystemBuilder.new] at hq

/-- One successful call made with a succeeding user constructor preserves
the registration bookkeeping invariants. -/
theorem builderInv_step (ops : List Op) (op : Op) (s : SystemBuilder)
    (hinv : BuilderInv ops s) (hctor : opCtorOk op = true)
    (hok : isOk (runOp s op).snd = true) :
    BuilderInv (ops ++ [op]) (runOp s op).fst := by
  have hcore2 : CoreInv (runOp s op).fst := coreInv_runOp s op hinv.core
  cases op with
  | add name c =>
    obtain ⟨i, hci⟩ := opCtorOk_user hctor
    simp only at hci
    subst hci
    rcases himpl : add_system_impl s name (.user i none) with ⟨s1, r⟩
    cases r with
    | error e =>
      exfalso
      have herr : (runOp s (Op.add name (.user i none))).snd = Except.error e := by
        simp [runOp, add_system, himpl]
      rw [herr] at hok
      cases hok
    | ok node =>
      have hbundle := builderInv_after_impl ops (Op.add name (.user i none)) s name
        (.user i none) node hinv rfl ⟨i, rfl⟩ (by rw [himpl])
      rw [himpl] at hbundle
      simp only at hbundle
      obtain ⟨breg, btab, bmiss, bpc, bmono⟩ := hbundle
      have hrun : (runOp s (Op.add name (.user i none))).fst =
          { s1 with edges := s1.edges ++ [(s1.root, node)] } := by
        simp [runOp, add_system, himpl]
      rw [hrun] at hcore2 ⊢
      refine ⟨hcore2, breg, ?_, btab, ?_, bpc⟩
      · intro m hm
        rcases mentioned_append.mp hm with hm2 | hm2
        · obtain ⟨q, hq⟩ := hinv.mentioned_mem m hm2
          exact ⟨q, bmono m q hq⟩
        · cases hm2
      · intro q m hq
        obtain ⟨lk, hedge, ment, nreg⟩ := bmiss q m hq
        exact ⟨lk, List.mem_append_left _ hedge, ment, nreg⟩
  | addWithDeps name c deps =>
    obtain ⟨i, hci⟩ := opCtorOk_user hctor
    simp only at hci
    subst hci
    rcases himpl : add_system_impl s name (.user i none) with ⟨s1, r⟩
    cases r with
    | error e =>
      exfalso
      have herr : (runOp s (Op.addWithDeps name (.user i none) deps)).snd =
          Except.error e := by
        simp [runOp, add_system_with_deps, himpl]
      rw [herr] at hok
      cases hok
    | ok node =>
      have hbundle := builderInv_after_impl ops (Op.addWithDeps name (.user i none) deps)
        s name (.user i none) node hinv rfl ⟨i, rfl⟩ (by rw [himpl])
      rw [himpl] at hbundle
      simp only at hbundle
      obtain ⟨breg, btab, bmiss, bpc, bmono⟩ := hbundle
      have hcore1 : CoreInv s1 := by
        have := coreInv_add_system_impl s name (.user i none) hinv.core
        rw [himpl] at this
        exact this
      have hspec := add_system_impl_ok_spec hinv.core (by rw [himpl] : _ = Except.ok node)
      rw [himpl] at hspec
      simp only at hspec
      obtain ⟨hnode, hnne, _, _⟩ := hspec
      rcases hres : add_deps_loop node deps s1 with ⟨s2, r2⟩
      cases r2 with
      | error e =>
        exfalso
        have herr : (runOp s (Op.addWithDeps name (.user i none) deps)).snd =
            Except.error e := by
          simp [runOp, add_system_with_deps, himpl, hres]
        rw [herr] at hok
        cases hok
      | ok u =>
        cases u
        have hok2 : (add_deps_loop node deps s1).snd = Except.ok () := by rw [hres]
        have linv := add_deps_loop_inv (ops ++ [Op.addWithDeps name (.user i none) deps])
          node deps s1 hcore1 hnode hnne
          (fun d hd => mentioned_append.mpr (Or.inr hd))
          breg btab bmiss bpc hok2
        rw [hres] at linv
        simp only at linv
        obtain ⟨cmono, cdeps, ctab, cmiss, cpc⟩ := linv
        have hrun : (runOp s (Op.addWithDeps name (.user i none) deps)).fst = s2 := by
          simp [runOp, add_system_with_deps, himpl, hres]
        rw [hrun] at hcore2 ⊢
        refine ⟨hcore2, ?_, ?_, ctab, cmiss, cpc⟩
        · intro m hm
          obtain ⟨q, hq⟩ := breg m hm
          exact ⟨q, cmono m q hq⟩
        · intro m hm
          rcases mentioned_append.mp hm with hm2 | hm2
          · obtain ⟨q, hq⟩ := hinv.mentioned_mem m hm2
            exact ⟨q, cmono m q (bmono m q hq)⟩
          · exact cdeps m hm2

theorem runOps_append (s : SystemBuilder) (l : List Op) (op : Op) :
    runOps s (l ++ [op]) = (runOp (runOps s l) op).fst := by
  induction l generalizing s with
  | nil => rfl
  | cons a t ih => exact ih _

theorem opsOk_append (s : SystemBuilder) (l : List Op) (op : Op) :
    opsOk s (l ++ [op]) = (opsOk s l && isOk (runOp (runOps s l) op).snd) := by
  induction l generalizing s with
  | nil => simp [opsOk, runOps]
  | cons a t ih =>
    simp only [List.cons_append, opsOk, runOps, List.append_eq]
    rw [ih, Bool.and_assoc]

/-- The registration bookkeeping invariants hold after any all-Ok call
sequence made of succeeding user constructors. -/
theorem builderInv_ops : ∀ (ops : List Op), opsOk SystemBuilder.new ops = true →
    (∀ op ∈ ops, opCtorOk op = true) → BuilderInv ops (builderAfter ops) := by
  intro ops
  induction ops using List.reverseRecOn with
  | nil => intro _ _; exact builderInv_new
  | append_singleton l op ih =>
    intro hok hctor
    have h2 : opsOk SystemBuilder.new l = true ∧
        isOk (runOp (runOps SystemBuilder.new l) op).snd = true := by
      have h3 := hok
      rw [opsOk_append] at h3
      simpa using h3
    have hctl : ∀ op2 ∈ l, opCtorOk op2 = true :=
      fun op2 h => hctor op2 (List.mem_append_left _ h)
    have hcto : opCtorOk op = true :=
      hctor op (List.mem_append_right _ (List.mem_cons_self _ _))
    have hstep := builderInv_step l op (runOps SystemBuilder.new l)
      (ih h2.1 hctl) hcto h2.2
    show BuilderInv (l ++ [op]) (runOps SystemBuilder.new (l ++ [op]))
    rw [runOps_append]
    exact hstep

/-- The build loop surfaces the error of the single failing payload in its
traversal order when every other payload it meets succeeds. -/
theorem buildLoop_first_error (nodes : List (Option SystemConstructor)) (p : Nat)
    (cp : SystemConstructor) (E : SystemError)
    (hp : nodes.getD p none = some cp) (hcp : runConstructor cp = Except.error E) :
    ∀ (order : List Nat) (prio : Nat) (trace : List (Nat × Nat)),
      p ∈ order →
      (∀ q ∈ order, q ≠ p → ∀ c, nodes.getD q none = some c →
        runConstructor c = Except.ok ()) →
      (buildLoop nodes order prio trace).snd = Except.error E := by
  intro order
  induction order with
  | nil => intro prio trace hmem _; cases hmem
  | cons n rest ih =>
    intro prio trace hmem hothers
    by_cases hnp : n = p
    · subst hnp
      simp only [buildLoop]
      rw [hp]
      simp [hcp]
    · rcases hg : nodes.getD n none with _ | c
      · have hstep : buildLoop nodes (n :: rest) prio trace =
            buildLoop nodes rest prio trace := by
          simp only [buildLoop]
          rw [hg]
        rw [hstep]
        refine ih _ _ ?_ (fun q hq => hothers q (List.mem_cons_of_mem _ hq))
        rcases List.mem_cons.mp hmem with h | h
        · exact absurd h.symm hnp
        · exact h
      · have hco : runConstructor c = Except.ok () :=
          hothers n (List.mem_cons_self _ _) hnp c hg
        have hstep : buildLoop nodes (n :: rest) prio trace =
            buildLoop nodes rest (prio - 1) (trace ++ [(n, prio)]) := by
          simp only [buildLoop]
          rw [hg]
          simp [hco]
        rw [hstep]
        refine ih _ _ ?_ (fun q hq => hothers q (List.mem_cons_of_mem _ hq))
        rcases List.mem_cons.mp hmem with h | h
        · exact absurd h.symm hnp
        · exact h

/-- Claim C6: if some call declares the name as a dependency, no call ever
registers it, every call returns Ok with a succeeding user constructor
(absent an earlier payload failure), and the name is the only such
unresolved dependency, then build invokes the placeholder created for that
name and fails with MissingDependentSystem carrying exactly that name. -/
theorem c6_missing_dependency_error (ops : List Op) (name : String)
    (hok : opsOk SystemBuilder.new ops = true)
    (hctor : ∀ op ∈ ops, opCtorOk op = true)
    (hdep : MentionedDep ops name)
    (hreg : ¬ Registered ops name)
    (huniq : ∀ op ∈ ops, ∀ m ∈ opDeps op, m = name ∨ Registered ops m) :
    build (builderAfter ops) =
      Except.error (SystemError.MissingDependentSystem name) := by
  have hinv := builderInv_ops ops hok hctor
  obtain ⟨p, hp⟩ := hinv.mentioned_mem name hdep
  have hpmem := lookupName_mem hp
  have hmiss : (builderAfter ops).nodes.getD p none =
      some (SystemConstructor.missingDep name) := by
    rcases hinv.table_state (name, p) hpmem with h2 | h2
    · exact absurd h2 hreg
    · exact h2
  obtain ⟨_, hedge, _, _⟩ := hinv.missing_char p name hmiss
  have hreach : Reaches (builderAfter ops) (builderAfter ops).root p := by
    rw [hinv.core.root_eq]
    exact Relation.ReflTransGen.single hedge
  have hporder : p ∈ dfsVisit (builderAfter ops) (builderAfter ops).root :=
    dfsVisit_complete (builderAfter ops)
      (by rw [hinv.core.root_eq]; exact hinv.core.len_pos)
      hinv.core.edges_tgt_lt p hreach
  have hothers : ∀ q ∈ dfsVisit (builderAfter ops) (builderAfter ops).root, q ≠ p →
      ∀ c, (builderAfter ops).nodes.getD q none = some c →
      runConstructor c = Except.ok () := by
    intro q _ hqp c hc
    rcases hinv.payload_class q c hc with ⟨m, rfl⟩ | ⟨i, rfl⟩
    · exfalso
      obtain ⟨hlk, _, hment, hnreg⟩ := hinv.missing_char q m hc
      have hm : m = name := by
        obtain ⟨op2, hop2, hmem2⟩ := hment
        rcases huniq op2 hop2 m hmem2 with h3 | h3
        · exact h3
        · exact absurd h3 hnreg
      rw [hm, hp] at hlk
      cases hlk
      exact hqp rfl
    · rfl
  exact buildLoop_first_error (builderAfter ops).nodes p
    (SystemConstructor.missingDep name) (SystemError.MissingDependentSystem name)
    hmiss rfl _ priorityMax [] hporder hothers

/-- Claim C6 witness: registering A with a dependency on the never
registered name B makes build fail with MissingDependentSystem B. -/
theorem c6_missing_dependency_error_witness :
    opsOk SystemBuilder.new c6WitnessOps = true ∧
    MentionedDep c6WitnessOps "B" ∧
    ¬ Registered c6WitnessOps "B" ∧
    build (builderAfter c6WitnessOps) =
      Except.error (SystemError.MissingDependentSystem "B") :=
  ⟨by decide, by decide, by decide,
    c6_missing_dependency_error c6WitnessOps "B" (by decide) (by decide) (by decide)
      (by decide) (by decide)⟩

/-- Claim C1 (code divergence): a successful, cycle-free, fully registered
call sequence in which build succeeds and invokes every registered
constructor exactly once, yet assigns the system P (node 2) the priority
priorityMax while its transitive dependency Z (node 3) only receives
priorityMax minus 2: the dependent gets a strictly higher priority value
than its dependency, contradicting the claimed ordering guarantee. -/
theorem c1_build_misorders_dependency :
    opsOk SystemBuilder.new c1Ops = true ∧
    lookupName (builderAfter c1Ops).node_table "P" = some 2 ∧
    lookupName (builderAfter c1Ops).node_table "Z" = some 3 ∧
    (3, 2) ∈ (builderAfter c1Ops).edges ∧
    build (builderAfter c1Ops) = Except.ok () ∧
    buildTrace (builderAfter c1Ops) =
      [(2, priorityMax), (1, priorityMax - 1), (3, priorityMax - 2)] ∧
    priorityMax - 2 < priorityMax := by
  refine ⟨by decide, by decide, by decide, by decide, ?_, ?_, by decide⟩
  · decide
  · decide

/-- Claim C2 (code divergence): both registrations of the mutual-dependency
scenario return Ok, and afterwards the graph holds the two edges (2, 1) and
(1, 2) — a directed cycle between the nodes of X and Y — so the graph is not
acyclic after a successful mutation and the cycle-closing edge was
committed. -/
theorem c2_cycle_committed_after_ok_calls :
    opsOk SystemBuilder.new c2Ops = true ∧
    lookupName (builderAfter c2Ops).node_table "X" = some 1 ∧
    lookupName (builderAfter c2Ops).node_table "Y" = some 2 ∧
    (2, 1) ∈ (builderAfter c2Ops).edges ∧
    (1, 2) ∈ (builderAfter c2Ops).edges ∧
    Relation.TransGen (edgeRel (builderAfter c2Ops)) 1 1 := by
  refine ⟨by decide, by decide, by decide, by decide, by decide, ?_⟩
  have h12 : edgeRel (builderAfter c2Ops) 1 2 := by
    show (1, 2) ∈ (builderAfter c2Ops).edges
    decide
  have h21 : edgeRel (builderAfter c2Ops) 2 1 := by
    show (2, 1) ∈ (builderAfter c2Ops).edges
    decide
  exact Relation.TransGen.tail (Relation.TransGen.single h12) h21

/-- Claim C3 (code divergence): in the second call of the mutual-dependency
scenario the node being registered is 2 (Y) and the dependency node is 1
(X); the query the claim mandates, connected from the dependent node 2 to
the dependency node 1, is true on the graph state at check time, so the
claim requires the call to fail with WouldCycle and not add the edge — yet
the code (which queries the opposite direction) returns Ok and adds the
edge (1, 2). -/
theorem c3_cycle_query_reversed :
    hasPathConnecting xDepsYState 2 1 = true ∧
    (runOp xDepsYState yDepsXOp).snd = Except.ok 2 ∧
    (1, 2) ∈ (runOp xDepsYState yDepsXOp).fst.edges := by
  refine ⟨by decide, by decide, by decide⟩

/-- Claim C4 (code divergence): after registering X with a dependency on Y,
registering Y with a dependency on X returns Ok (not WouldCycle) and the
edge from the node of X (1) to the node of Y (2) is present in the graph
afterwards. -/
theorem c4_mutual_dependency_accepted :
    (runOp xDepsYState yDepsXOp).snd = Except.ok 2 ∧
    (1, 2) ∈ (runOp xDepsYState yDepsXOp).fst.edges ∧
    (runOp xDepsYState yDepsXOp).snd ≠ Except.error SystemError.WouldCycle := by
  refine ⟨by decide, by decide, by decide⟩

/-- Claim C7 (code divergence): re-registering the name A (already present
as node 1) through add_system_with_deps with the same dependency list B
fails with WouldCycle, because the reversed reachability query finds the
already-present edge from the node of B to the node of A — so re-registration
via the with-deps form is an error here, contradicting the claim that
re-registration is never an error. -/
theorem c7_reregistration_rejected :
    lookupName aDepsBState.node_table "A" = some 1 ∧
    lookupName aDepsBState.node_table "B" = some 2 ∧
    (runOp aDepsBState (.addWithDeps "A" (.user 2 none) ["B"])).snd =
      Except.error SystemError.WouldCycle := by
  refine ⟨by decide, by decide, by decide⟩

/-- Claim C5 (counterexample): registering A through add_system_with_deps
with an empty dependency list returns Ok, yet the resulting node 1 is a
non-root node that is not reachable from the root: no root-anchoring edge is
added for a node first created by the with-deps registration form. -/
theorem c5_counterexample_empty_deps_unreachable :
    isOk (runOp SystemBuilder.new emptyDepsOp).snd = true ∧
    1 < (runOp SystemBuilder.new emptyDepsOp).fst.nodes.length ∧
    1 ≠ (runOp SystemBuilder.new emptyDepsOp).fst.root ∧
    ¬ Reaches (runOp SystemBuilder.new emptyDepsOp).fst
        (runOp SystemBuilder.new emptyDepsOp).fst.root 1 := by
  refine ⟨by decide, by decide, by decide, ?_⟩
  intro h
  rcases Relation.ReflTransGen.cases_head h with h0 | ⟨c, hc, _⟩
  · exact absurd h0 (by decide)
  · have hedges : (runOp SystemBuilder.new emptyDepsOp).fst.edges = [] := by decide
    have hc2 : ((runOp SystemBuilder.new emptyDepsOp).fst.root, c) ∈
        (runOp SystemBuilder.new emptyDepsOp).fst.edges := hc
    rw [hedges] at hc2
    exact absurd hc2 (List.not_mem_nil _)

end Combustion
